import Mathlib

/- Verification of the Gecode constraint kernel core against its natural
language specification.  The definitions below are shallow embeddings of
the C++ code in src/gecode/kernel/core.hpp and src/unnamed/part_000
(the search dispatch).  Pointers are modelled as addresses (natural
numbers, with 0 playing the role of the null pointer), machine unsigned
arithmetic as natural numbers with explicit reduction modulo a power of
two where overflow matters, and fallible operations return Except. -/

namespace GecodeKernel

/- ===================== Generic constants ===================== -/

/-- Width of a size_t value on the modelled 64 bit platform. -/
def sizeW : Nat := 2 ^ 64

/-- Wrapping subtraction of size_t values as computed by C++ unsigned
arithmetic: the mathematical difference reduced modulo 2 to the 64. -/
def wsub (a b : Nat) : Nat := (a + (sizeW - b % sizeW)) % sizeW

/-- Generic modification event: variable is assigned (core.hpp line 212). -/
def ME_GEN_ASSIGNED : Int := 1

/-- Propagation condition for an assigned variable (core.hpp line 219). -/
def PC_GEN_ASSIGNED : Nat := 0

/- ===================== Space memory manager: rrealloc ===================== -/

/-- A call made by Space::rrealloc to the space allocator. -/
inductive MMCall where
  | ralloc (size : Nat)
  | memcpy (dst src n : Nat)
  | rfree (addr size : Nat)
  deriving DecidableEq, Repr

/-- Shallow embedding of Space::rrealloc (core.hpp lines 1571 to 1583).
The first argument is the address the space allocator hands out on the
grow path.  The result is the address of the resulting block together
with the exact sequence of allocator calls the code performs; sizes are
size_t values, so the subtraction in the shrink branch wraps. -/
def rrealloc (fresh b n m : Nat) : Nat × List MMCall :=
  if n < m then
    (fresh, [MMCall.ralloc m, MMCall.memcpy fresh b n, MMCall.rfree b n])
  else
    (b, [MMCall.rfree (b + m) (wsub m n)])

/- ===================== Space control state ===================== -/

/-- Control state of a space in propagation mode.  The field queueAddr is
the address of pc.p.queue[0] and active is the value of the pc.p.active
pointer; the null pointer is address 0. -/
structure SpaceCtl where
  queueAddr : Nat
  active : Nat
  deriving DecidableEq, Repr

/-- Space::fail (core.hpp lines 2296 to 2299): set active to NULL. -/
def fail (s : SpaceCtl) : SpaceCtl := { s with active := 0 }

/-- Space::failed (core.hpp lines 2301 to 2304): the space is failed iff
the active pointer is NULL. -/
def failed (s : SpaceCtl) : Bool := s.active == 0

/-- Space::stable (core.hpp lines 2306 to 2309): the pointer comparison
active less than the address of queue[0]. -/
def stable (s : SpaceCtl) : Bool := s.active < s.queueAddr

/-- Exception kinds signalled by the space operations modelled here. -/
inductive SpaceErr where
  | SpaceNotStable
  deriving DecidableEq, Repr

/-- Space::description (core.hpp lines 2311 to 2316): throw SpaceNotStable
if the space is not stable, otherwise delegate to the status branching.
The delegate bdesc stands for the virtual call to b_status. -/
def description (bdesc : SpaceCtl → Nat) (s : SpaceCtl) : Except SpaceErr Nat :=
  if ! stable s then Except.error SpaceErr.SpaceNotStable
  else Except.ok (bdesc s)

/- ===================== Search dispatch ===================== -/

/-- Kind of branch and bound engine returned by the dispatch. -/
inductive EngineKind where
  | sequential
  | parallel
  deriving DecidableEq, Repr

/-- Search options; the dispatch only reads the threads field. -/
structure SearchOptions where
  threads : Nat
  deriving DecidableEq, Repr

/-- Modelled from the spec: the translation Search::threads applied to the
options (implemented in a search source file that is not among the
sources; only its caller is).  The spec states the threads setting is
translated possibly via an OS probe; a request of zero threads is
answered by the probe npu, which reports at least one processing unit,
and any explicit request is kept. -/
def threadsTranslate (npu : Nat) (o : SearchOptions) : SearchOptions :=
  { o with threads := if o.threads = 0 then max npu 1 else o.threads }

/-- Shallow embedding of Search::bab (src/unnamed/part_000 lines 64 to
75): with thread support the options are translated and the sequential
engine is chosen exactly when the translated thread count equals one;
without thread support the sequential engine is always chosen. -/
def bab (hasThreads : Bool) (npu : Nat) (o : SearchOptions) : EngineKind :=
  if hasThreads then
    let t := threadsTranslate npu o
    if t.threads = 1 then EngineKind.sequential else EngineKind.parallel
  else
    EngineKind.sequential

/-- The translated thread count is always positive. -/
theorem threadsTranslate_pos (npu : Nat) (o : SearchOptions) :
    1 ≤ (threadsTranslate npu o).threads := by
  unfold threadsTranslate
  by_cases h : o.threads = 0 <;> simp [h]
  omega

/- ===================== Variable implementation: subscription array ===================== -/

/-- State of the subscription machinery of one variable implementation
(class VarImp, core.hpp lines 349 to 395), together with the space level
subscription counter n_sub and the outcome of the hot area test that
resize performs against the memory manager (a pointer comparison against
the region mm.subscriptions, which lives outside the variable).  The
array base is modelled as a list with one element per allocated slot,
holding the value 0 for a slot that has never been written; actors are
named by natural numbers.  The list idx collects the words u.idx[0] up
to u.idx[pc_max], so the source expression idx(pc) is the list entry at
position pc - 1. -/
structure SubArr where
  base : List Nat
  entries : Nat
  idx : List Nat
  freeAndBits : Nat
  nSub : Nat
  hot : Bool
  deriving DecidableEq, Repr

/-- VarImp::resize (core.hpp lines 2528 to 2553).  With no array yet, a
fresh four slot array is allocated; otherwise the array grows to n + 4
slots when it lies in the dedicated subscription area and to
(n + 1) * 3 / 2 slots otherwise, where n is the number of used entries,
and the first n entries are copied over.  Newly allocated slots are
uninitialized and modelled by the value 0. -/
def resize (freeBits : Nat) (s : SubArr) : SubArr :=
  if s.base = [] then
    { s with freeAndBits := s.freeAndBits + (4 <<< freeBits),
             base := List.replicate 4 0 }
  else
    let n := s.entries
    let m := if s.hot then n + 4 else ((n + 1) * 3) >>> 1
    { s with base := s.base.take n ++ List.replicate (m - n) 0,
             freeAndBits := s.freeAndBits + ((m - n) <<< freeBits) }

/-- The descending loop of VarImp::enter (core.hpp lines 2494 to 2497):
for j from pc_max down to pc + 1, copy the first actor of bucket j one
slot past the end of bucket j and bump the bucket boundary. -/
def enterShift (b : List Nat) (I : List Nat) (pc j : Nat) : List Nat × List Nat :=
  if pc < j then
    enterShift (b.set (I.getD j 0) (b.getD (I.getD (j - 1) 0) 0))
               (I.set j (I.getD j 0 + 1)) pc (j - 1)
  else (b, I)
  termination_by j

/-- Body of VarImp::enter for a propagator (core.hpp lines 2481 to 2512)
after the resize decision: consume one free slot, move the first advisor
to the end, shift buckets pc_max down to pc + 1, then put the propagator
at the start of bucket pc. -/
def enterCore (pcMax freeBits : Nat) (s : SubArr) (p pc : Nat) : SubArr :=
  let s1 := { s with freeAndBits := s.freeAndBits - (1 <<< freeBits) }
  let b0 := s1.base.set s1.entries (s1.base.getD (s1.idx.getD pcMax 0) 0)
  let e1 := s1.entries + 1
  let bi := enterShift b0 s1.idx pc pcMax
  let b2 := bi.1.set (bi.2.getD pc 0)
                    (bi.1.getD (if pc = 0 then 0 else bi.2.getD (pc - 1) 0) 0)
  let I2 := bi.2.set pc (bi.2.getD pc 0 + 1)
  let b3 := b2.set (if pc = 0 then 0 else I2.getD (pc - 1) 0) p
  { s1 with base := b3, entries := e1, idx := I2 }

/-- VarImp::enter for a propagator (core.hpp lines 2481 to 2512): count
one subscription, resize when no free slot is left, then insert. -/
def enter (pcMax freeBits : Nat) (s : SubArr) (p pc : Nat) : SubArr :=
  let s0 := { s with nSub := s.nSub + 1 }
  let s1 := if s0.freeAndBits >>> freeBits = 0 then resize freeBits s0 else s0
  enterCore pcMax freeBits s1 p pc

/-- Body of VarImp::enter for an advisor (core.hpp lines 2514 to 2526)
after the resize decision: consume one free slot, move the first advisor
one slot past the used entries and store the new advisor at the start of
the advisor bucket. -/
def enterAdvCore (pcMax freeBits : Nat) (s : SubArr) (a : Nat) : SubArr :=
  let s2 := { s with freeAndBits := s.freeAndBits - (1 <<< freeBits) }
  let b0 := s2.base.set s2.entries (s2.base.getD (s2.idx.getD pcMax 0) 0)
  let b1 := b0.set (s2.idx.getD pcMax 0) a
  { s2 with base := b1, entries := s2.entries + 1 }

/-- VarImp::enter for an advisor (core.hpp lines 2514 to 2526): count one
subscription, resize when full, then insert. -/
def enterAdv (pcMax freeBits : Nat) (s : SubArr) (a : Nat) : SubArr :=
  let s0 := { s with nSub := s.nSub + 1 }
  let s1 := if s0.freeAndBits >>> freeBits = 0 then resize freeBits s0 else s0
  enterAdvCore pcMax freeBits s1 a

/-- The linear search while (*f != a) f++ of VarImp::remove (core.hpp
line 2594), starting at position i; in the source the scan has no bound,
here it stops at the end of the allocated array. -/
def findFrom (b : List Nat) (p i : Nat) : Nat :=
  if h : i < b.length then
    if b.getD i 0 = p then i else findFrom b p (i + 1)
  else i
  termination_by b.length - i

/-- The ascending loop of VarImp::remove (core.hpp lines 2598 to 2601):
for j from pc + 1 while j < stop, copy the last actor of bucket j into
the slot before the start of bucket j and lower the boundary. -/
def removeShift (b : List Nat) (I : List Nat) (stop j : Nat) : List Nat × List Nat :=
  if j < stop then
    removeShift (b.set (I.getD (j - 1) 0 - 1) (b.getD (I.getD j 0 - 1) 0))
                (I.set (j - 1) (I.getD (j - 1) 0 - 1)) stop (j + 1)
  else (b, I)
  termination_by stop - j

/-- VarImp::remove for a propagator (core.hpp lines 2578 to 2607): find
the propagator in its bucket, replace it by the last actor of the
bucket, shift the later buckets down by one slot and shrink the array by
one used entry. -/
def remove (pcMax freeBits : Nat) (s : SubArr) (p pc : Nat) : SubArr :=
  let f := findFrom s.base p (if pc = 0 then 0 else s.idx.getD (pc - 1) 0)
  let b0 := s.base.set f (s.base.getD (s.idx.getD pc 0 - 1) 0)
  let bi := removeShift b0 s.idx (pcMax + 1) (pc + 1)
  let b2 := bi.1.set (bi.2.getD pcMax 0 - 1) (bi.1.getD (s.entries - 1) 0)
  let I2 := bi.2.set pcMax (bi.2.getD pcMax 0 - 1)
  { s with base := b2, idx := I2, entries := s.entries - 1,
           freeAndBits := s.freeAndBits + (1 <<< freeBits),
           nSub := s.nSub - 1 }

/-- VarImp::remove for an advisor (core.hpp lines 2609 to 2629): find the
advisor in the advisor bucket and replace it by the last used entry. -/
def removeAdv (pcMax freeBits : Nat) (s : SubArr) (a : Nat) : SubArr :=
  let f := findFrom s.base a (s.idx.getD pcMax 0)
  let b0 := s.base.set f (s.base.getD (s.entries - 1) 0)
  { s with base := b0, entries := s.entries - 1,
           freeAndBits := s.freeAndBits + (1 <<< freeBits),
           nSub := s.nSub - 1 }

/-- VarImp::subscribe for a propagator (core.hpp lines 2555 to 2569).
The second component records the invocation of VarImp::schedule made by
subscribe: some me when the propagator is scheduled with event me and
none when no scheduling happens. -/
def subscribe (pcMax freeBits : Nat) (s : SubArr) (p pc : Nat)
    (assigned : Bool) (me : Int) (sched : Bool) : SubArr × Option Int :=
  if assigned then
    (s, if sched then some ME_GEN_ASSIGNED else none)
  else
    (enter pcMax freeBits s p pc,
     if sched ∧ pc ≠ PC_GEN_ASSIGNED then some me else none)

/-- VarImp::cancel for a propagator (core.hpp lines 2631 to 2636). -/
def cancel (pcMax freeBits : Nat) (s : SubArr) (p pc : Nat) (assigned : Bool) : SubArr :=
  if assigned then s else remove pcMax freeBits s p pc

/- ===================== Canonical decomposition of subscription arrays ===================== -/

/-- Rotation moving the first element to the back. -/
def rot1 : List Nat → List Nat
  | [] => []
  | h :: t => t ++ [h]

/-- Rotation moving the last element to the front. -/
def rotBack (l : List Nat) : List Nat :=
  if l = [] then [] else l.getLastD 0 :: l.dropLast

/-- Swap with last and drop last: how remove deletes position k. -/
def swapRemove (l : List Nat) (k : Nat) : List Nat :=
  (l.set k (l.getLastD 0)).dropLast

/-- End offsets of a list of buckets laid out from offset acc: entry j is
the offset one past bucket j. -/
def bounds : List (List Nat) → Nat → List Nat
  | [], _ => []
  | b :: t, acc => (acc + b.length) :: bounds t (acc + b.length)

/-- Start offsets of a list of buckets laid out from offset acc. -/
def starts : List (List Nat) → Nat → List Nat
  | [], _ => []
  | b :: t, acc => acc :: starts t (acc + b.length)

/-- Build the subscription state whose array consists of the propagator
buckets bs (bucket j holding the subscribers with propagation condition
j), then the advisors adv, then the free area fr. -/
def ofB (bs : List (List Nat)) (adv fr : List Nat) (fab ns : Nat) (hot : Bool) : SubArr :=
  { base := bs.flatten ++ adv ++ fr
    entries := bs.flatten.length + adv.length
    idx := bounds bs 0
    freeAndBits := fab
    nSub := ns
    hot := hot }

/-- A subscription state is wellformed when it is the layout of a bucket
decomposition whose free area agrees with the free slot count. -/
def WF (pcMax freeBits : Nat) (s : SubArr) : Prop :=
  ∃ bs adv fr fab ns hot, s = ofB bs adv fr fab ns hot ∧
    bs.length = pcMax + 1 ∧ fab >>> freeBits = fr.length

/-- The slice of the subscription array holding the subscribers with
propagation condition c, read off the raw state as the source does:
from offset actor(c) up to offset actorNonZero(c + 1). -/
def bucketSlice (s : SubArr) (c : Nat) : List Nat :=
  (s.base.take (s.idx.getD c 0)).drop (if c = 0 then 0 else s.idx.getD (c - 1) 0)

/-- The slice of the subscription array holding the subscribed advisors:
from offset actorNonZero(pc_max + 1) up to entries. -/
def advSlice (pcMax : Nat) (s : SubArr) : List Nat :=
  (s.base.take s.entries).drop (s.idx.getD pcMax 0)

/-- The partition boundaries are weakly increasing and fit the array. -/
def idxMono (pcMax : Nat) (s : SubArr) : Prop :=
  (∀ j, j + 1 ≤ pcMax → s.idx.getD j 0 ≤ s.idx.getD (j + 1) 0) ∧
  s.idx.getD pcMax 0 ≤ s.entries ∧ s.entries ≤ s.base.length

/-- Bucket update performed by entering propagator p with condition pc:
bucket pc receives p in front of its rotation, later buckets rotate. -/
def entBuckets : List (List Nat) → Nat → Nat → List (List Nat)
  | [], _, _ => []
  | b :: t, 0, p => (p :: rot1 b) :: t.map rot1
  | b :: t, pc + 1, p => b :: entBuckets t pc p

/- ===================== List helper lemmas ===================== -/

theorem set_append_right {α : Type} {A B : List α} {i : Nat} (v : α) (h : A.length ≤ i) :
    (A ++ B).set i v = A ++ B.set (i - A.length) v := by
  rw [List.set_append, if_neg (by omega)]

theorem set_append_left {α : Type} {A B : List α} {i : Nat} (v : α) (h : i < A.length) :
    (A ++ B).set i v = A.set i v ++ B := by
  rw [List.set_append, if_pos h]

theorem getD_append_left {α : Type} {A B : List α} {i : Nat} (d : α) (h : i < A.length) :
    (A ++ B).getD i d = A.getD i d :=
  List.getD_append A B d i h

theorem getD_at_length {α : Type} {A B : List α} (d : α) :
    (A ++ B).getD A.length d = B.headD d := by
  rw [List.getD_append_right A B d A.length le_rfl, Nat.sub_self]
  cases B <;> simp [List.getD]

theorem length_bounds (bs : List (List Nat)) (acc : Nat) :
    (bounds bs acc).length = bs.length := by
  induction bs generalizing acc with
  | nil => rfl
  | cons b t ih => simp [bounds, ih]

theorem length_starts (bs : List (List Nat)) (acc : Nat) :
    (starts bs acc).length = bs.length := by
  induction bs generalizing acc with
  | nil => rfl
  | cons b t ih => simp [starts, ih]

theorem bounds_append (A B : List (List Nat)) (acc : Nat) :
    bounds (A ++ B) acc = bounds A acc ++ bounds B (acc + A.flatten.length) := by
  induction A generalizing acc with
  | nil => simp [bounds]
  | cons b t ih =>
      have h1 : bounds ((b :: t) ++ B) acc
          = (acc + b.length) :: bounds (t ++ B) (acc + b.length) := rfl
      have h2 : bounds (b :: t) acc
          = (acc + b.length) :: bounds t (acc + b.length) := rfl
      have h3 : acc + b.length + t.flatten.length = acc + (b :: t).flatten.length := by
        simp [List.flatten_cons]
        omega
      rw [h1, h2, ih (acc + b.length), List.cons_append, h3]

theorem bounds_add (bs : List (List Nat)) (acc c : Nat) :
    bounds bs (acc + c) = (bounds bs acc).map (fun z => z + c) := by
  induction bs generalizing acc with
  | nil => rfl
  | cons b t ih =>
      simp only [bounds, List.map_cons]
      rw [show acc + c + b.length = acc + b.length + c by omega, ih (acc + b.length)]

theorem bounds_congr_length {A B : List (List Nat)}
    (h : A.map List.length = B.map List.length) (acc : Nat) :
    bounds A acc = bounds B acc := by
  induction A generalizing B acc with
  | nil => cases B with
      | nil => rfl
      | cons b t => simp at h
  | cons a t ih =>
      cases B with
      | nil => simp at h
      | cons b u =>
          simp only [List.map_cons, List.cons.injEq] at h
          simp [bounds, h.1, ih h.2]

theorem bounds_getD {bs : List (List Nat)} {j : Nat} (acc : Nat) (h : j < bs.length) :
    (bounds bs acc).getD j 0 = acc + (bs.take (j + 1)).flatten.length := by
  induction bs generalizing acc j with
  | nil => simp at h
  | cons b t ih =>
      cases j with
      | zero => simp [bounds, List.getD]
      | succ j =>
          simp only [List.length_cons, Nat.succ_lt_succ_iff] at h
          simp only [bounds, List.getD_cons_succ, ih (acc + b.length) h,
            List.take_succ_cons, List.flatten_cons, List.length_append]
          omega

theorem starts_append_bounds (R : List (List Nat)) (acc : Nat) :
    starts R acc ++ [acc + R.flatten.length] = acc :: bounds R acc := by
  induction R generalizing acc with
  | nil => simp [starts, bounds]
  | cons b t ih =>
      simp only [starts, bounds, List.cons_append, List.flatten_cons, List.length_append]
      rw [show acc + (b.length + t.flatten.length) = (acc + b.length) + t.flatten.length by omega,
        ih  (acc + b.length)]

theorem length_rot1 (l : List Nat) : (rot1 l).length = l.length := by
  cases l <;> simp [rot1]

theorem length_rotBack (l : List Nat) : (rotBack l).length = l.length := by
  unfold rotBack
  by_cases h : l = []
  · simp [h]
  · simp [h, List.length_dropLast]
    have : l.length ≠ 0 := by simpa using fun hh => h (List.length_eq_zero.mp hh)
    omega

theorem rot1_perm (l : List Nat) : (rot1 l).Perm l := by
  cases l with
  | nil => simp [rot1]
  | cons h t => simpa [rot1] using (@List.perm_append_comm Nat t [h])

theorem getLastD_eq_getLast (l : List Nat) (d : Nat) (h : l ≠ []) :
    l.getLastD d = l.getLast h := by
  cases l with
  | nil => exact absurd rfl h
  | cons a t => simp [List.getLastD_eq_getLast?, List.getLast?_eq_getLast (a :: t) h]

theorem rotBack_perm (l : List Nat) : (rotBack l).Perm l := by
  unfold rotBack
  by_cases h : l = []
  · simp [h]
  · rw [if_neg h]
    have key : l.dropLast ++ [l.getLastD 0] = l := by
      rw [getLastD_eq_getLast l 0 h]
      exact List.dropLast_append_getLast h
    conv_rhs => rw [← key]
    simpa using (@List.perm_append_comm Nat [l.getLastD 0] l.dropLast)

theorem append_headD (l : List Nat) (d : Nat) :
    l ++ [l.headD d] = l.headD d :: rot1 l := by
  cases l <;> simp [rot1]

theorem getLastD_cons_self (l : List Nat) (d : Nat) :
    l.getLastD d :: l = rotBack l ++ [l.getLastD d] := by
  unfold rotBack
  by_cases h : l = []
  · simp [h]
  · rw [if_neg h, getLastD_eq_getLast l d h, getLastD_eq_getLast l 0 h,
      List.cons_append, List.dropLast_append_getLast h]

theorem shiftR_sub_one {fab fb : Nat} (h : 1 ≤ fab >>> fb) :
    (fab - (1 <<< fb)) >>> fb = fab >>> fb - 1 := by
  simp only [Nat.shiftRight_eq_div_pow, Nat.shiftLeft_eq, Nat.one_mul] at *
  have hp : 0 < 2 ^ fb := pow_pos (by norm_num) fb
  have hle : 2 ^ fb ≤ fab := by
    by_contra hc
    push_neg at hc
    rw [Nat.div_eq_of_lt hc] at h
    omega
  obtain ⟨q, r, hr, rfl⟩ : ∃ q r, r < 2 ^ fb ∧ fab = q * 2 ^ fb + r :=
    ⟨fab / 2 ^ fb, fab % 2 ^ fb, Nat.mod_lt _ hp, by
      rw [Nat.mul_comm]
      exact (Nat.div_add_mod fab (2 ^ fb)).symm⟩
  have hq : 1 ≤ q := by
    rcases Nat.eq_zero_or_pos q with h0 | h1
    · subst h0
      simp at hle
      omega
    · exact h1
  have e1 : q * 2 ^ fb + r - 2 ^ fb = (q - 1) * 2 ^ fb + r := by
    cases q with
    | zero => omega
    | succ q =>
        simp [Nat.succ_mul]
        omega
  rw [e1, Nat.add_comm ((q - 1) * 2 ^ fb) r, Nat.add_comm (q * 2 ^ fb) r,
    Nat.add_mul_div_right r (q - 1) hp, Nat.add_mul_div_right r q hp,
    Nat.div_eq_of_lt hr]
  omega

theorem shiftR_add {fab fb k : Nat} :
    (fab + (k <<< fb)) >>> fb = fab >>> fb + k := by
  simp only [Nat.shiftRight_eq_div_pow, Nat.shiftLeft_eq]
  exact Nat.add_mul_div_right fab k (pow_pos (by norm_num) fb)

theorem headD_append_cons (l rest : List Nat) (d x : Nat) :
    (l ++ d :: rest).headD x = l.headD d := by
  cases l <;> simp

/- ===================== The enter loop law ===================== -/

theorem enterShift_spec (pc : Nat) :
    ∀ (k : Nat) (A : List (List Nat)) (d : Nat) (rest Isuf : List Nat),
    A.length = pc + 1 + k →
    ∃ d2, enterShift (A.flatten ++ d :: rest) (bounds A 0 ++ Isuf) pc (pc + k) =
      ((A.take (pc + 1)).flatten ++ d2 :: (((A.drop (pc + 1)).map rot1).flatten ++ rest),
       bounds (A.take (pc + 1)) 0 ++
         ((bounds (A.drop (pc + 1)) (A.take (pc + 1)).flatten.length).map (fun z => z + 1)
           ++ Isuf)) := by
  intro k
  induction k with
  | zero =>
      intro A d rest Isuf hA
      refine ⟨d, ?_⟩
      rw [enterShift, if_neg (by omega)]
      have ht : A.take (pc + 1) = A := by
        rw [show pc + 1 = A.length by omega]
        exact List.take_length A
      have hd : A.drop (pc + 1) = [] := by
        rw [show pc + 1 = A.length by omega]
        exact List.drop_length A
      rw [ht, hd]
      simp [bounds]
  | succ k ih =>
      intro A d rest Isuf hA
      have hne : A ≠ [] := by
        intro hc
        rw [hc] at hA
        simp only [List.length_nil] at hA
        omega
      have hsplit : A.dropLast ++ [A.getLast hne] = A := List.dropLast_append_getLast hne
      set B := A.dropLast with hB
      set bn := A.getLast hne with hbn
      have hlenB : B.length = pc + 1 + k := by
        rw [hB, List.length_dropLast]
        omega
      have hflat : A.flatten = B.flatten ++ bn := by
        conv_lhs => rw [← hsplit]
        rw [List.flatten_append]
        simp
      have hbounds : bounds A 0 = bounds B 0 ++ [B.flatten.length + bn.length] := by
        conv_lhs => rw [← hsplit]
        rw [bounds_append]
        simp [bounds]
      have hlb : (bounds B 0).length = B.length := length_bounds B 0
      -- one unfolding of the loop
      rw [enterShift, if_pos (by omega)]
      -- the positions read and written in this iteration
      have hIj : (bounds A 0 ++ Isuf).getD (pc + (k + 1)) 0
          = B.flatten.length + bn.length := by
        rw [hbounds, List.append_assoc]
        rw [List.getD_append_right _ _ 0 _ (by omega)]
        rw [show pc + (k + 1) - (bounds B 0).length = 0 by omega]
        rfl
      have hIj1 : (bounds A 0 ++ Isuf).getD (pc + (k + 1) - 1) 0
          = B.flatten.length := by
        rw [hbounds, List.append_assoc]
        rw [getD_append_left 0 (by omega)]
        rw [show pc + (k + 1) - 1 = pc + k by omega]
        rw [bounds_getD 0 (by omega)]
        rw [show pc + k + 1 = B.length by omega, List.take_length B]
        omega
      have hread : (A.flatten ++ d :: rest).getD B.flatten.length 0 = bn.headD d := by
        rw [hflat, List.append_assoc]
        rw [getD_at_length]
        exact headD_append_cons bn rest d 0
      have hwrite : (A.flatten ++ d :: rest).set (B.flatten.length + bn.length) (bn.headD d)
          = B.flatten ++ (bn.headD d) :: (rot1 bn ++ rest) := by
        rw [hflat]
        rw [show B.flatten ++ bn ++ d :: rest = (B.flatten ++ bn) ++ d :: rest by
          rw [List.append_assoc]]
        rw [set_append_right _ (by simp)]
        simp only [List.length_append, Nat.sub_self]
        rw [show ((d :: rest).set 0 (bn.headD d)) = bn.headD d :: rest from rfl]
        rw [List.append_assoc]
        rw [show bn ++ bn.headD d :: rest = (bn ++ [bn.headD d]) ++ rest by
          rw [List.append_assoc]; rfl]
        rw [append_headD bn d]
        rfl
      have hIset : (bounds A 0 ++ Isuf).set (pc + (k + 1)) (B.flatten.length + bn.length + 1)
          = bounds B 0 ++ ((B.flatten.length + bn.length + 1) :: Isuf) := by
        rw [hbounds, List.append_assoc]
        rw [set_append_right _ (by omega)]
        rw [show pc + (k + 1) - (bounds B 0).length = 0 by omega]
        rfl
      rw [hIj, hIj1, hread, hwrite, hIset]
      rw [show pc + (k + 1) - 1 = pc + k by omega]
      -- apply the induction hypothesis to the smaller state
      obtain ⟨d2, hrec⟩ := ih B (bn.headD d) (rot1 bn ++ rest)
        ((B.flatten.length + bn.length + 1) :: Isuf) hlenB
      refine ⟨d2, ?_⟩
      rw [hrec]
      simp only [Prod.mk.injEq]
      -- rewrite the take and drop of A in terms of B and bn
      have htake : A.take (pc + 1) = B.take (pc + 1) := by
        conv_lhs => rw [← hsplit]
        exact List.take_append_of_le_length (by omega)
      have hdrop : A.drop (pc + 1) = B.drop (pc + 1) ++ [bn] := by
        conv_lhs => rw [← hsplit]
        exact List.drop_append_of_le_length (by omega)
      have hflen : (B.take (pc + 1)).flatten.length + (B.drop (pc + 1)).flatten.length
          = B.flatten.length := by
        conv_rhs => rw [← List.take_append_drop (pc + 1) B]
        rw [List.flatten_append, List.length_append]
      constructor
      · rw [htake, hdrop]
        rw [List.map_append, List.flatten_append]
        simp [List.append_assoc]
      · rw [htake, hdrop]
        rw [bounds_append, List.map_append]
        simp only [bounds, List.flatten_nil, List.length_nil, List.map_cons, List.map_nil]
        rw [List.append_assoc]
        congr 2
        simp only [List.cons_append, List.nil_append, List.cons.injEq, and_true]
        omega

/- ===================== The remove loop law ===================== -/

theorem getD_cons_append_lastPos (Rh Z : List Nat) (d : Nat) :
    (d :: (Rh ++ Z)).getD Rh.length 0 = Rh.getLastD d := by
  induction Rh generalizing d with
  | nil => simp [List.getD]
  | cons a t ih =>
      simp only [List.cons_append, List.length_cons, List.getD_cons_succ,
        List.getLastD_cons]
      exact ih a

theorem removeShift_spec :
    ∀ (k : Nat) (R : List (List Nat)) (Q : List Nat) (d : Nat)
      (rest Ipre Isuf : List Nat) (j : Nat),
    R.length = k → Ipre.length + 1 = j →
    ∃ d2, removeShift (Q ++ d :: (R.flatten ++ rest))
        (Ipre ++ (Q.length + 1) :: (bounds R (Q.length + 1) ++ Isuf)) (j + k) j =
      (Q ++ ((R.map rotBack).flatten ++ d2 :: rest),
       Ipre ++ (starts R Q.length ++ ((Q.length + R.flatten.length + 1) :: Isuf))) := by
  intro k
  induction k with
  | zero =>
      intro R Q d rest Ipre Isuf j hR hj
      refine ⟨d, ?_⟩
      rw [removeShift, if_neg (by omega)]
      rw [List.eq_nil_of_length_eq_zero hR]
      simp [bounds, starts]
  | succ k ih =>
      intro R Q d rest Ipre Isuf j hR hj
      cases R with
      | nil => simp at hR
      | cons Rh Rt =>
          rw [removeShift, if_pos (by omega)]
          have hIj : (Ipre ++ (Q.length + 1) :: (bounds (Rh :: Rt) (Q.length + 1) ++ Isuf)).getD j 0
              = Q.length + 1 + Rh.length := by
            rw [List.getD_append_right _ _ 0 j (by omega)]
            rw [show j - Ipre.length = 1 by omega]
            simp only [List.getD_cons_succ, bounds]
            rw [getD_append_left 0 (by simp [bounds, length_bounds])]
            simp [bounds, List.getD]
          have hIj1 : (Ipre ++ (Q.length + 1) :: (bounds (Rh :: Rt) (Q.length + 1) ++ Isuf)).getD (j - 1) 0
              = Q.length + 1 := by
            rw [show j - 1 = Ipre.length by omega]
            rw [getD_at_length]
            rfl
          have hread : (Q ++ d :: ((Rh :: Rt).flatten ++ rest)).getD (Q.length + 1 + Rh.length - 1) 0
              = Rh.getLastD d := by
            rw [List.getD_append_right _ _ 0 _ (by omega)]
            rw [show Q.length + 1 + Rh.length - 1 - Q.length = Rh.length by omega]
            rw [List.flatten_cons, List.append_assoc]
            exact getD_cons_append_lastPos Rh (Rt.flatten ++ rest) d
          have hwrite : (Q ++ d :: ((Rh :: Rt).flatten ++ rest)).set (Q.length + 1 - 1) (Rh.getLastD d)
              = (Q ++ rotBack Rh) ++ (Rh.getLastD d) :: (Rt.flatten ++ rest) := by
            rw [show Q.length + 1 - 1 = Q.length by omega]
            rw [set_append_right _ le_rfl, Nat.sub_self]
            rw [show ((d :: ((Rh :: Rt).flatten ++ rest)).set 0 (Rh.getLastD d))
              = Rh.getLastD d :: ((Rh :: Rt).flatten ++ rest) from rfl]
            rw [List.flatten_cons, List.append_assoc]
            rw [show Rh.getLastD d :: (Rh ++ (Rt.flatten ++ rest))
              = (Rh.getLastD d :: Rh) ++ (Rt.flatten ++ rest) from rfl]
            rw [getLastD_cons_self Rh d]
            simp [List.append_assoc]
          have hIset : (Ipre ++ (Q.length + 1) :: (bounds (Rh :: Rt) (Q.length + 1) ++ Isuf)).set (j - 1) (Q.length + 1 - 1)
              = (Ipre ++ [Q.length]) ++ ((Q.length + Rh.length + 1)
                  :: (bounds Rt (Q.length + Rh.length + 1) ++ Isuf)) := by
            rw [show j - 1 = Ipre.length by omega]
            rw [set_append_right _ le_rfl, Nat.sub_self]
            rw [show Q.length + 1 - 1 = Q.length by omega]
            simp only [List.set_cons_zero, bounds]
            rw [show Q.length + 1 + Rh.length = Q.length + Rh.length + 1 by omega]
            simp [List.append_assoc]
          rw [hIj, hIj1, hread, hwrite, hIset]
          obtain ⟨d2, hrec⟩ := ih Rt (Q ++ rotBack Rh) (Rh.getLastD d) rest
            (Ipre ++ [Q.length]) Isuf (j + 1)
            (by simp only [List.length_cons] at hR; omega)
            (by simp only [List.length_append, List.length_cons, List.length_nil]; omega)
          have hlen2 : (Q ++ rotBack Rh).length = Q.length + Rh.length := by
            simp [length_rotBack]
          rw [hlen2] at hrec
          rw [show j + (k + 1) = j + 1 + k by omega]
          refine ⟨d2, ?_⟩
          rw [hrec]
          simp only [Prod.mk.injEq]
          refine ⟨by simp [List.append_assoc], ?_⟩
          simp only [starts, List.cons_append, List.nil_append, List.append_assoc,
            List.length_append, List.flatten_cons]
          rw [show Q.length + Rh.length + Rt.flatten.length + 1
            = Q.length + (Rh.length + Rt.flatten.length) + 1 by omega]

/- ===================== The linear search law ===================== -/

theorem findFrom_spec :
    ∀ (L P rest : List Nat) (p : Nat), p ∈ L →
    findFrom (P ++ (L ++ rest)) p P.length = P.length + L.indexOf p := by
  intro L
  induction L with
  | nil =>
      intro P rest p hp
      simp at hp
  | cons a t ih =>
      intro P rest p hp
      rw [findFrom, dif_pos (by simp)]
      have hval : (P ++ ((a :: t) ++ rest)).getD P.length 0 = a := by
        rw [List.cons_append, getD_at_length, List.headD_cons]
      by_cases ha : a = p
      · subst ha
        rw [if_pos hval]
        simp [List.indexOf_cons_self]
      · rw [if_neg (by rw [hval]; exact ha)]
        have hmem : p ∈ t := by
          cases hp with
          | head => exact absurd rfl ha
          | tail _ h => exact h
        have := ih (P ++ [a]) rest p hmem
        rw [List.indexOf_cons_ne t ha]
        rw [show P.length + (t.indexOf p).succ = (P ++ [a]).length + t.indexOf p by
          simp; omega]
        rw [← this]
        congr 1
        · simp [List.append_assoc]
        · simp

/- ===================== Canonical laws for the array operations ===================== -/

theorem take_succ_getD (bs : List (List Nat)) (pc : Nat) (h : pc < bs.length) :
    bs.take (pc + 1) = bs.take pc ++ [bs.getD pc []] := by
  induction bs generalizing pc with
  | nil => simp at h
  | cons b t ih =>
      cases pc with
      | zero => simp [List.getD]
      | succ pc =>
          simp only [List.length_cons, Nat.succ_lt_succ_iff] at h
          simp only [List.take_succ_cons, List.getD_cons_succ, List.cons_append]
          rw [ih pc h]

theorem flatten_map_rot1_length (X : List (List Nat)) :
    ((X.map rot1).flatten).length = X.flatten.length := by
  induction X with
  | nil => rfl
  | cons b t ih => simp [List.flatten_cons, ih, length_rot1]

theorem length_take_of_le {bs : List (List Nat)} {n : Nat} (h : n ≤ bs.length) :
    (bs.take n).length = n := by
  simp [List.length_take]
  omega

theorem entBuckets_eq (bs : List (List Nat)) (pc p : Nat) (h : pc < bs.length) :
    entBuckets bs pc p
      = bs.take pc ++ (p :: rot1 (bs.getD pc [])) :: (bs.drop (pc + 1)).map rot1 := by
  induction bs generalizing pc with
  | nil => simp at h
  | cons b t ih =>
      cases pc with
      | zero => simp [entBuckets, List.getD]
      | succ pc =>
          simp only [List.length_cons, Nat.succ_lt_succ_iff] at h
          simp only [entBuckets, List.take_succ_cons, List.getD_cons_succ,
            List.drop_succ_cons, List.cons_append]
          rw [ih pc h]

theorem enterCore_ofB (pcMax freeBits : Nat) (bs : List (List Nat)) (adv fr : List Nat)
    (x fab ns : Nat) (hot : Bool) (p pc : Nat)
    (hlen : bs.length = pcMax + 1) (hpc : pc ≤ pcMax) :
    enterCore pcMax freeBits (ofB bs adv (x :: fr) fab ns hot) p pc
      = ofB (bs.take pc ++ (p :: rot1 (bs.getD pc [])) :: (bs.drop (pc + 1)).map rot1)
          (rot1 adv) fr (fab - (1 <<< freeBits)) ns hot := by
  have hpclt : pc < bs.length := by omega
  set bpc := bs.getD pc [] with hbpc
  set d := adv.headD x with hd
  set REST0 := ((bs.drop (pc + 1)).map rot1).flatten ++ (rot1 adv ++ fr) with hREST0
  have htakes : bs.take (pc + 1) = bs.take pc ++ [bpc] := take_succ_getD bs pc hpclt
  have hlt : (bs.take pc).length = pc := length_take_of_le (by omega)
  have hlt1 : (bs.take (pc + 1)).length = pc + 1 := length_take_of_le (by omega)
  set L0 := (bs.take pc).flatten.length with hL0
  have hL : (bs.take (pc + 1)).flatten.length = L0 + bpc.length := by
    rw [htakes, List.flatten_append, List.length_append, hL0]
    simp only [List.flatten_cons, List.flatten_nil, List.append_nil]
  -- step 1: value read for the advisor move
  have hIpcMax : (bounds bs 0).getD pcMax 0 = bs.flatten.length := by
    rw [bounds_getD 0 (by omega), show pcMax + 1 = bs.length by omega, List.take_length bs]
    omega
  have hread0 : (bs.flatten ++ adv ++ x :: fr).getD bs.flatten.length 0 = d := by
    rw [List.append_assoc, getD_at_length, headD_append_cons adv fr x 0]
  -- step 2: the advisor move itself
  have hb0 : ((bs.flatten ++ adv ++ x :: fr).set (bs.flatten.length + adv.length) d)
      = bs.flatten ++ d :: (rot1 adv ++ fr) := by
    rw [set_append_right _ (by simp)]
    simp only [List.length_append, Nat.sub_self]
    rw [show ((x :: fr).set 0 d) = d :: fr from rfl]
    rw [List.append_assoc]
    rw [show adv ++ d :: fr = (adv ++ [d]) ++ fr by simp]
    rw [hd, append_headD adv x]
    simp [List.append_assoc]
  -- step 3: the shifting loop
  obtain ⟨d2, hshift⟩ := enterShift_spec pc (pcMax - pc) bs d (rot1 adv ++ fr) []
    (by omega)
  rw [show pc + (pcMax - pc) = pcMax by omega] at hshift
  simp only [List.append_nil] at hshift
  -- abbreviations for the state after the loop
  set Mp := (bounds (bs.drop (pc + 1)) (bs.take (pc + 1)).flatten.length).map
    (fun z => z + 1) with hMp
  set I1 := bounds (bs.take (pc + 1)) 0 ++ Mp with hI1
  set B1 := (bs.take (pc + 1)).flatten
    ++ d2 :: (((bs.drop (pc + 1)).map rot1).flatten ++ (rot1 adv ++ fr)) with hB1
  -- positions for the final insertion
  have hI1pc : I1.getD pc 0 = L0 + bpc.length := by
    rw [hI1, getD_append_left 0 (by rw [length_bounds]; omega)]
    rw [bounds_getD 0 (by omega)]
    rw [List.take_take, show min (pc + 1) (pc + 1) = pc + 1 by omega]
    rw [hL]
    omega
  have hI1star : (if pc = 0 then 0 else I1.getD (pc - 1) 0) = L0 := by
    by_cases h0 : pc = 0
    · rw [if_pos h0, hL0, h0]
      simp
    · rw [if_neg h0, hI1, getD_append_left 0 (by rw [length_bounds]; omega)]
      rw [bounds_getD 0 (by omega)]
      rw [List.take_take, show min (pc - 1 + 1) (pc + 1) = pc by omega]
      rw [hL0]
      omega
  have hTsplit : (bs.take (pc + 1)).flatten = (bs.take pc).flatten ++ bpc := by
    rw [htakes, List.flatten_append]
    simp only [List.flatten_cons, List.flatten_nil, List.append_nil]
  have hreadv : B1.getD L0 0 = bpc.headD d2 := by
    rw [hB1, hTsplit, List.append_assoc, hL0, getD_at_length]
    exact headD_append_cons bpc _ d2 0
  have hset2 : B1.set (L0 + bpc.length) (bpc.headD d2)
      = (bs.take pc).flatten ++ (bpc.headD d2)
        :: (rot1 bpc ++ (((bs.drop (pc + 1)).map rot1).flatten ++ (rot1 adv ++ fr))) := by
    rw [hB1, hTsplit, List.append_assoc]
    rw [set_append_right _ (by rw [hL0]; omega)]
    rw [show L0 + bpc.length - (bs.take pc).flatten.length = bpc.length by rw [hL0]; omega]
    rw [set_append_right _ (by omega), Nat.sub_self]
    rw [show ((d2 :: (((bs.drop (pc + 1)).map rot1).flatten ++ (rot1 adv ++ fr))).set 0
      (bpc.headD d2)) = bpc.headD d2 :: (((bs.drop (pc + 1)).map rot1).flatten
        ++ (rot1 adv ++ fr)) from rfl]
    rw [show bpc ++ bpc.headD d2 :: (((bs.drop (pc + 1)).map rot1).flatten
      ++ (rot1 adv ++ fr)) = (bpc ++ [bpc.headD d2]) ++ (((bs.drop (pc + 1)).map rot1).flatten
        ++ (rot1 adv ++ fr)) by simp]
    rw [append_headD bpc d2]
    simp [List.append_assoc]
  have hI2 : I1.set pc (L0 + bpc.length + 1)
      = bounds (bs.take pc) 0 ++ ((L0 + bpc.length + 1) :: Mp) := by
    rw [hI1, set_append_left _ (by rw [length_bounds]; omega)]
    rw [htakes, bounds_append]
    rw [set_append_right _ (by rw [length_bounds]; omega)]
    rw [show pc - (bounds (bs.take pc) 0).length = 0 by rw [length_bounds]; omega]
    simp only [bounds, Nat.zero_add, Nat.add_zero, List.set_cons_zero]
    rw [hL0]
    simp [List.append_assoc]
  have hI2star : (if pc = 0 then 0
      else (bounds (bs.take pc) 0 ++ ((L0 + bpc.length + 1) :: Mp)).getD (pc - 1) 0) = L0 := by
    by_cases h0 : pc = 0
    · rw [if_pos h0, hL0, h0]
      simp
    · rw [if_neg h0, getD_append_left 0 (by rw [length_bounds]; omega)]
      rw [bounds_getD 0 (by omega)]
      rw [List.take_take, show min (pc - 1 + 1) pc = pc by omega]
      rw [hL0]
      omega
  have hset3 : ((bs.take pc).flatten ++ (bpc.headD d2)
        :: (rot1 bpc ++ (((bs.drop (pc + 1)).map rot1).flatten ++ (rot1 adv ++ fr)))).set L0 p
      = (bs.take pc).flatten ++ p
        :: (rot1 bpc ++ (((bs.drop (pc + 1)).map rot1).flatten ++ (rot1 adv ++ fr))) := by
    rw [set_append_right _ (by rw [hL0])]
    rw [show L0 - (bs.take pc).flatten.length = 0 by rw [hL0]; omega]
    rfl
  -- lengths of the pieces of the array
  have hsplitbs : (bs.take pc ++ [bpc]) ++ bs.drop (pc + 1) = bs := by
    rw [← htakes]
    exact List.take_append_drop (pc + 1) bs
  have hlenflat : bs.flatten.length
      = L0 + bpc.length + (bs.drop (pc + 1)).flatten.length := by
    conv_lhs => rw [← hsplitbs]
    rw [List.flatten_append, List.flatten_append, List.length_append, List.length_append]
    simp only [List.flatten_cons, List.flatten_nil, List.append_nil, hL0]
  -- assemble the final state
  simp only [enterCore, ofB]
  rw [hIpcMax, hread0, hb0, hshift]
  simp only []
  rw [hI1pc, hI1star, hreadv, hset2, hI2, hI2star, hset3]
  simp only [SubArr.mk.injEq]
  refine ⟨?_, ?_, ?_, trivial, trivial, trivial⟩
  · rw [List.flatten_append]
    simp only [List.flatten_cons, List.append_assoc, List.cons_append]
  · simp only [List.flatten_append, List.flatten_cons, List.length_append, length_rot1,
      flatten_map_rot1_length]
    rw [hlenflat]
    simp only [List.length_cons, length_rot1]
    omega
  · rw [bounds_append]
    simp only [bounds, List.length_cons, length_rot1, Nat.zero_add]
    have hbD : bounds ((bs.drop (pc + 1)).map rot1) (L0 + (bpc.length + 1))
        = (bounds (bs.drop (pc + 1)) (L0 + bpc.length)).map (fun z => z + 1) := by
      have hcl : ((bs.drop (pc + 1)).map rot1).map List.length
          = (bs.drop (pc + 1)).map List.length := by
        rw [List.map_map]
        exact List.map_congr_left (fun a _ => length_rot1 a)
      rw [bounds_congr_length hcl]
      rw [show L0 + (bpc.length + 1) = (L0 + bpc.length) + 1 by omega]
      exact bounds_add (bs.drop (pc + 1)) (L0 + bpc.length) 1
    rw [hbD, hL0]
    have hacc : (bs.take (pc + 1)).flatten.length
        = (bs.take pc).flatten.length + bpc.length := by
      rw [hTsplit, List.length_append]
    rw [hMp, hacc]
    simp [List.append_assoc]
    omega

/- ===================== Tools for the remove laws ===================== -/

theorem getLastD_irrel {l : List Nat} (h : l ≠ []) (d e : Nat) :
    l.getLastD d = l.getLastD e := by
  cases l with
  | nil => exact absurd rfl h
  | cons a t => rw [List.getLastD_cons, List.getLastD_cons]

theorem dropLast_append_getLastD {l : List Nat} (h : l ≠ []) :
    l.dropLast ++ [l.getLastD 0] = l := by
  rw [getLastD_eq_getLast l 0 h]
  exact List.dropLast_append_getLast h

theorem length_set_pos {l : List Nat} {k v : Nat} (h : l ≠ []) :
    l.set k v ≠ [] := by
  intro hc
  apply h
  have hlen := congrArg List.length hc
  rw [List.length_set] at hlen
  simp only [List.length_nil] at hlen
  exact List.length_eq_zero.mp hlen

theorem set_getLastD (l : List Nat) (k : Nat) (hk : k < l.length) :
    (l.set k (l.getLastD 0)).getLastD 0 = l.getLastD 0 := by
  induction l generalizing k with
  | nil => simp at hk
  | cons a t ih =>
      cases k with
      | zero =>
          simp only [List.set_cons_zero, List.getLastD_cons]
          cases t with
          | nil => rfl
          | cons c u => simp only [List.getLastD_cons]
      | succ k =>
          simp only [List.length_cons, Nat.succ_lt_succ_iff] at hk
          have htne : t ≠ [] := by
            intro hc
            rw [hc] at hk
            simp at hk
          simp only [List.set_cons_succ, List.getLastD_cons]
          rw [getLastD_irrel (@length_set_pos t k (t.getLastD a) htne) a 0,
            getLastD_irrel htne a 0]
          exact ih k hk

theorem set_getLastD_split (l : List Nat) (k : Nat) (hk : k < l.length) :
    l.set k (l.getLastD 0) = swapRemove l k ++ [l.getLastD 0] := by
  have hne : l ≠ [] := by
    intro hc
    rw [hc] at hk
    simp at hk
  have h2 : l.set k (l.getLastD 0) ≠ [] := length_set_pos hne
  conv_lhs => rw [← dropLast_append_getLastD h2]
  rw [swapRemove, set_getLastD l k hk]

theorem length_swapRemove (l : List Nat) (k : Nat) :
    (swapRemove l k).length = l.length - 1 := by
  rw [swapRemove, List.length_dropLast, List.length_set]

theorem flatten_map_rotBack_length (X : List (List Nat)) :
    ((X.map rotBack).flatten).length = X.flatten.length := by
  induction X with
  | nil => rfl
  | cons b t ih => simp [List.flatten_cons, ih, length_rotBack]

theorem getD_length_sub_one {l : List Nat} (h : l ≠ []) :
    l.getD (l.length - 1) 0 = l.getLastD 0 := by
  induction l with
  | nil => exact absurd rfl h
  | cons a t ih =>
      cases t with
      | nil => simp [List.getD, List.getLastD]
      | cons c u =>
          have hih := ih (by simp)
          simp only [List.length_cons] at hih
          simp only [List.length_cons]
          rw [show u.length + 1 + 1 - 1 = u.length + 1 by omega, List.getD_cons_succ]
          rw [show u.length + 1 - 1 = u.length by omega] at hih
          rw [hih]
          conv_rhs => rw [List.getLastD_cons]
          exact getLastD_irrel (by simp) 0 a

/- ===================== The resize laws ===================== -/

theorem resize_ofB (freeBits : Nat) (bs : List (List Nat)) (adv fr : List Nat)
    (fab ns : Nat) (hot : Bool) (hne : bs.flatten ++ adv ++ fr ≠ []) :
    resize freeBits (ofB bs adv fr fab ns hot)
      = ofB bs adv
          (List.replicate ((if hot then bs.flatten.length + adv.length + 4
              else ((bs.flatten.length + adv.length + 1) * 3) >>> 1)
            - (bs.flatten.length + adv.length)) 0)
          (fab + (((if hot then bs.flatten.length + adv.length + 4
              else ((bs.flatten.length + adv.length + 1) * 3) >>> 1)
            - (bs.flatten.length + adv.length)) <<< freeBits)) ns hot := by
  simp only [resize, ofB, if_neg hne]
  have htk : (bs.flatten ++ adv ++ fr).take (bs.flatten.length + adv.length)
      = bs.flatten ++ adv := by
    rw [show bs.flatten.length + adv.length = (bs.flatten ++ adv).length by
      rw [List.length_append]]
    exact List.take_left (bs.flatten ++ adv) fr
  rw [htk]

theorem resize_ofB_nil (freeBits : Nat) (bs : List (List Nat)) (fab ns : Nat)
    (hot : Bool) (hflat : bs.flatten = []) :
    resize freeBits (ofB bs [] [] fab ns hot)
      = ofB bs [] (List.replicate 4 0) (fab + (4 <<< freeBits)) ns hot := by
  simp [resize, ofB, hflat]

/-- The geometric growth factor gives at least one new slot. -/
theorem growth_ge (n : Nat) : n + 1 ≤ ((n + 1) * 3) >>> 1 := by
  rw [Nat.shiftRight_eq_div_pow, pow_one]
  rw [Nat.le_div_iff_mul_le (by norm_num)]
  omega

theorem shiftL_le {K fb : Nat} (h : 1 ≤ K) : 1 <<< fb ≤ K <<< fb := by
  simp only [Nat.shiftLeft_eq, Nat.one_mul]
  exact Nat.le_mul_of_pos_left _ (by omega)

theorem shiftL_sub_one {K fb : Nat} :
    K <<< fb - 1 <<< fb = (K - 1) <<< fb := by
  simp only [Nat.shiftLeft_eq, Nat.one_mul]
  conv_rhs => rw [Nat.sub_mul, Nat.one_mul]

/- ===================== The combined enter law ===================== -/

theorem enter_ofB (pcMax freeBits : Nat) (bs : List (List Nat)) (adv fr : List Nat)
    (fab ns : Nat) (hot : Bool) (p pc : Nat)
    (hlen : bs.length = pcMax + 1) (hpc : pc ≤ pcMax)
    (hfree : fab >>> freeBits = fr.length) :
    ∃ fr2 fab2, enter pcMax freeBits (ofB bs adv fr fab ns hot) p pc
      = ofB (bs.take pc ++ (p :: rot1 (bs.getD pc [])) :: (bs.drop (pc + 1)).map rot1)
          (rot1 adv) fr2 fab2 (ns + 1) hot
      ∧ fab2 >>> freeBits = fr2.length := by
  have hns : ({ base := (ofB bs adv fr fab ns hot).base,
                entries := (ofB bs adv fr fab ns hot).entries,
                idx := (ofB bs adv fr fab ns hot).idx,
                freeAndBits := (ofB bs adv fr fab ns hot).freeAndBits,
                nSub := (ofB bs adv fr fab ns hot).nSub + 1,
                hot := (ofB bs adv fr fab ns hot).hot } : SubArr)
      = ofB bs adv fr fab (ns + 1) hot := rfl
  cases fr with
  | cons x fr1 =>
      have hfneq : ¬ ((ofB bs adv (x :: fr1) fab ns hot).freeAndBits >>> freeBits = 0) := by
        simp only [ofB]
        simp only [List.length_cons] at hfree
        omega
      refine ⟨fr1, fab - (1 <<< freeBits), ?_, ?_⟩
      · simp only [enter]
        simp only [hns]
        rw [if_neg hfneq]
        exact enterCore_ofB pcMax freeBits bs adv fr1 x fab (ns + 1) hot p pc hlen hpc
      · simp only [List.length_cons] at hfree
        rw [shiftR_sub_one (by omega)]
        omega
  | nil =>
      have hf0 : fab >>> freeBits = 0 := by simpa using hfree
      have hifp : ((ofB bs adv ([] : List Nat) fab ns hot).freeAndBits >>> freeBits = 0) := by
        simpa only [ofB] using hf0
      by_cases hb : bs.flatten ++ adv ++ ([] : List Nat) = []
      · have hba : bs.flatten = [] ∧ adv = [] := by simpa using hb
        obtain ⟨hflat, hadv⟩ := hba
        subst hadv
        refine ⟨List.replicate 3 0, fab + (4 <<< freeBits) - (1 <<< freeBits), ?_, ?_⟩
        · simp only [enter]
          simp only [hns]
          rw [if_pos hifp]
          rw [resize_ofB_nil freeBits bs fab (ns + 1) hot hflat]
          rw [show List.replicate 4 (0 : Nat) = 0 :: List.replicate 3 0 from rfl]
          exact enterCore_ofB pcMax freeBits bs [] (List.replicate 3 0) 0
            (fab + (4 <<< freeBits)) (ns + 1) hot p pc hlen hpc
        · rw [Nat.add_sub_assoc (shiftL_le (by omega)), shiftL_sub_one, shiftR_add, hf0]
          simp
      · obtain ⟨K, hK, hK1⟩ : ∃ K, (if hot then bs.flatten.length + adv.length + 4
            else ((bs.flatten.length + adv.length + 1) * 3) >>> 1)
              - (bs.flatten.length + adv.length) = K ∧ 1 ≤ K := by
          refine ⟨_, rfl, ?_⟩
          by_cases hh : hot
          · simp only [if_pos hh]
            omega
          · simp only [if_neg hh]
            have := growth_ge (bs.flatten.length + adv.length)
            omega
        have hres : resize freeBits (ofB bs adv [] fab (ns + 1) hot)
            = ofB bs adv (List.replicate K 0) (fab + (K <<< freeBits)) (ns + 1) hot := by
          rw [resize_ofB freeBits bs adv [] fab (ns + 1) hot hb, hK]
        refine ⟨List.replicate (K - 1) 0, fab + (K <<< freeBits) - (1 <<< freeBits), ?_, ?_⟩
        · simp only [enter]
          simp only [hns]
          rw [if_pos hifp, hres]
          rw [show List.replicate K (0 : Nat) = 0 :: List.replicate (K - 1) 0 by
            rw [show K = (K - 1) + 1 by omega]
            rfl]
          exact enterCore_ofB pcMax freeBits bs adv (List.replicate (K - 1) 0) 0
            (fab + (K <<< freeBits)) (ns + 1) hot p pc hlen hpc
        · rw [Nat.add_sub_assoc (shiftL_le hK1), shiftL_sub_one, shiftR_add, hf0]
          simp

/- ===================== The advisor enter law ===================== -/

theorem enterAdvCore_ofB (pcMax freeBits : Nat) (bs : List (List Nat))
    (adv fr : List Nat) (x fab ns : Nat) (hot : Bool) (a : Nat)
    (hlen : bs.length = pcMax + 1) :
    enterAdvCore pcMax freeBits (ofB bs adv (x :: fr) fab ns hot) a
      = ofB bs (a :: rot1 adv) fr (fab - (1 <<< freeBits)) ns hot := by
  have hIpcMax : (bounds bs 0).getD pcMax 0 = bs.flatten.length := by
    rw [bounds_getD 0 (by omega), show pcMax + 1 = bs.length by omega, List.take_length bs]
    omega
  have hread0 : (bs.flatten ++ adv ++ x :: fr).getD bs.flatten.length 0 = adv.headD x := by
    rw [List.append_assoc, getD_at_length, headD_append_cons adv fr x 0]
  have hb0 : ((bs.flatten ++ adv ++ x :: fr).set (bs.flatten.length + adv.length) (adv.headD x))
      = bs.flatten ++ adv.headD x :: (rot1 adv ++ fr) := by
    rw [set_append_right _ (by simp)]
    simp only [List.length_append, Nat.sub_self]
    rw [show ((x :: fr).set 0 (adv.headD x)) = adv.headD x :: fr from rfl]
    rw [List.append_assoc]
    rw [show adv ++ adv.headD x :: fr = (adv ++ [adv.headD x]) ++ fr by simp]
    rw [append_headD adv x]
    simp [List.append_assoc]
  have hb1 : (bs.flatten ++ adv.headD x :: (rot1 adv ++ fr)).set bs.flatten.length a
      = bs.flatten ++ a :: (rot1 adv ++ fr) := by
    rw [set_append_right _ le_rfl, Nat.sub_self]
    rfl
  simp only [enterAdvCore, ofB]
  rw [hIpcMax, hread0, hb0, hb1]
  simp only [SubArr.mk.injEq]
  refine ⟨?_, ?_, trivial, trivial, trivial, trivial⟩
  · simp [List.append_assoc]
  · simp only [List.length_cons, length_rot1]
    omega

theorem enterAdv_ofB (pcMax freeBits : Nat) (bs : List (List Nat)) (adv fr : List Nat)
    (fab ns : Nat) (hot : Bool) (a : Nat)
    (hlen : bs.length = pcMax + 1)
    (hfree : fab >>> freeBits = fr.length) :
    ∃ fr2 fab2, enterAdv pcMax freeBits (ofB bs adv fr fab ns hot) a
      = ofB bs (a :: rot1 adv) fr2 fab2 (ns + 1) hot
      ∧ fab2 >>> freeBits = fr2.length := by
  have hns : ({ base := (ofB bs adv fr fab ns hot).base,
                entries := (ofB bs adv fr fab ns hot).entries,
                idx := (ofB bs adv fr fab ns hot).idx,
                freeAndBits := (ofB bs adv fr fab ns hot).freeAndBits,
                nSub := (ofB bs adv fr fab ns hot).nSub + 1,
                hot := (ofB bs adv fr fab ns hot).hot } : SubArr)
      = ofB bs adv fr fab (ns + 1) hot := rfl
  cases fr with
  | cons x fr1 =>
      have hfneq : ¬ ((ofB bs adv (x :: fr1) fab ns hot).freeAndBits >>> freeBits = 0) := by
        simp only [ofB]
        simp only [List.length_cons] at hfree
        omega
      refine ⟨fr1, fab - (1 <<< freeBits), ?_, ?_⟩
      · simp only [enterAdv]
        simp only [hns]
        rw [if_neg hfneq]
        exact enterAdvCore_ofB pcMax freeBits bs adv fr1 x fab (ns + 1) hot a hlen
      · simp only [List.length_cons] at hfree
        rw [shiftR_sub_one (by omega)]
        omega
  | nil =>
      have hf0 : fab >>> freeBits = 0 := by simpa using hfree
      have hifp : ((ofB bs adv ([] : List Nat) fab ns hot).freeAndBits >>> freeBits = 0) := by
        simpa only [ofB] using hf0
      by_cases hb : bs.flatten ++ adv ++ ([] : List Nat) = []
      · have hba : bs.flatten = [] ∧ adv = [] := by simpa using hb
        obtain ⟨hflat, hadv⟩ := hba
        subst hadv
        refine ⟨List.replicate 3 0, fab + (4 <<< freeBits) - (1 <<< freeBits), ?_, ?_⟩
        · simp only [enterAdv]
          simp only [hns]
          rw [if_pos hifp]
          rw [resize_ofB_nil freeBits bs fab (ns + 1) hot hflat]
          rw [show List.replicate 4 (0 : Nat) = 0 :: List.replicate 3 0 from rfl]
          exact enterAdvCore_ofB pcMax freeBits bs [] (List.replicate 3 0) 0
            (fab + (4 <<< freeBits)) (ns + 1) hot a hlen
        · rw [Nat.add_sub_assoc (shiftL_le (by omega)), shiftL_sub_one, shiftR_add, hf0]
          simp
      · obtain ⟨K, hK, hK1⟩ : ∃ K, (if hot then bs.flatten.length + adv.length + 4
            else ((bs.flatten.length + adv.length + 1) * 3) >>> 1)
              - (bs.flatten.length + adv.length) = K ∧ 1 ≤ K := by
          refine ⟨_, rfl, ?_⟩
          by_cases hh : hot
          · simp only [if_pos hh]
            omega
          · simp only [if_neg hh]
            have := growth_ge (bs.flatten.length + adv.length)
            omega
        have hres : resize freeBits (ofB bs adv [] fab (ns + 1) hot)
            = ofB bs adv (List.replicate K 0) (fab + (K <<< freeBits)) (ns + 1) hot := by
          rw [resize_ofB freeBits bs adv [] fab (ns + 1) hot hb, hK]
        refine ⟨List.replicate (K - 1) 0, fab + (K <<< freeBits) - (1 <<< freeBits), ?_, ?_⟩
        · simp only [enterAdv]
          simp only [hns]
          rw [if_pos hifp, hres]
          rw [show List.replicate K (0 : Nat) = 0 :: List.replicate (K - 1) 0 by
            rw [show K = (K - 1) + 1 by omega]
            rfl]
          exact enterAdvCore_ofB pcMax freeBits bs adv (List.replicate (K - 1) 0) 0
            (fab + (K <<< freeBits)) (ns + 1) hot a hlen
        · rw [Nat.add_sub_assoc (shiftL_le hK1), shiftL_sub_one, shiftR_add, hf0]
          simp

/- ===================== The remove law ===================== -/

theorem remove_ofB (pcMax freeBits : Nat) (bs : List (List Nat)) (adv fr : List Nat)
    (fab ns : Nat) (hot : Bool) (p pc : Nat)
    (hlen : bs.length = pcMax + 1) (hpc : pc ≤ pcMax) (hp : p ∈ bs.getD pc []) :
    ∃ w, remove pcMax freeBits (ofB bs adv fr fab ns hot) p pc
      = ofB (bs.take pc ++ (swapRemove (bs.getD pc []) ((bs.getD pc []).indexOf p))
              :: (bs.drop (pc + 1)).map rotBack)
          (rotBack adv) (w :: fr) (fab + (1 <<< freeBits)) (ns - 1) hot := by
  have hpclt : pc < bs.length := by omega
  set bpc := bs.getD pc [] with hbpc
  set k := bpc.indexOf p with hkdef
  have hkp : k < bpc.length := List.indexOf_lt_length.mpr hp
  have hbne : bpc ≠ [] := by
    intro hc
    rw [hc] at hp
    simp at hp
  have htakes : bs.take (pc + 1) = bs.take pc ++ [bpc] := take_succ_getD bs pc hpclt
  have hlt : (bs.take pc).length = pc := length_take_of_le (by omega)
  set P := (bs.take pc).flatten with hP
  set L0 := P.length with hL0
  set R := bs.drop (pc + 1) with hR
  have hRlen : R.length = pcMax - pc := by
    rw [hR, List.length_drop]
    omega
  have hsplitbs : (bs.take pc ++ [bpc]) ++ R = bs := by
    rw [← htakes, hR]
    exact List.take_append_drop (pc + 1) bs
  have hflatsplit : bs.flatten = P ++ (bpc ++ R.flatten) := by
    conv_lhs => rw [← hsplitbs]
    rw [List.flatten_append, List.flatten_append]
    simp [List.append_assoc, hP]
  have hbase : bs.flatten ++ adv ++ fr
      = P ++ (bpc ++ (R.flatten ++ (adv ++ fr))) := by
    rw [hflatsplit]
    simp [List.append_assoc]
  -- the start of the bucket searched by the while loop
  have hstar0 : (if pc = 0 then 0 else (bounds bs 0).getD (pc - 1) 0) = L0 := by
    by_cases h0 : pc = 0
    · rw [if_pos h0, hL0, hP, h0]
      simp
    · rw [if_neg h0, bounds_getD 0 (by omega), show pc - 1 + 1 = pc by omega, hL0, hP]
      omega
  -- the while loop finds the first occurrence inside the bucket
  have hfind : findFrom (bs.flatten ++ adv ++ fr) p L0 = L0 + k := by
    rw [hbase, hL0, hP]
    exact findFrom_spec bpc (bs.take pc).flatten (R.flatten ++ (adv ++ fr)) p hp
  -- the end of the bucket
  have hbpcend : (bounds bs 0).getD pc 0 = L0 + bpc.length := by
    rw [bounds_getD 0 (by omega), htakes, List.flatten_append]
    simp only [List.flatten_cons, List.flatten_nil, List.append_nil, List.length_append,
      hL0, hP]
    omega
  -- the value read at the last slot of the bucket
  have hreadlast : (bs.flatten ++ adv ++ fr).getD (L0 + bpc.length - 1) 0
      = bpc.getLastD 0 := by
    rw [hbase]
    rw [List.getD_append_right _ _ 0 _ (by rw [hL0]; omega)]
    rw [show L0 + bpc.length - 1 - P.length = bpc.length - 1 by rw [hL0]; omega]
    rw [getD_append_left 0 (by omega)]
    exact getD_length_sub_one hbne
  -- the swap write
  have hb0 : (bs.flatten ++ adv ++ fr).set (L0 + k) (bpc.getLastD 0)
      = (P ++ swapRemove bpc k)
          ++ (bpc.getLastD 0) :: (R.flatten ++ (adv ++ fr)) := by
    rw [hbase, set_append_right _ (by rw [hL0]; omega)]
    rw [show L0 + k - P.length = k by rw [hL0]; omega]
    rw [set_append_left _ hkp, set_getLastD_split bpc k hkp]
    simp [List.append_assoc]
  set Q := P ++ swapRemove bpc k with hQ
  have hQlen : Q.length = L0 + bpc.length - 1 := by
    rw [hQ, List.length_append, length_swapRemove, hL0]
    omega
  have hQlen1 : Q.length + 1 = L0 + bpc.length := by
    rw [hQlen]
    omega
  -- the bucket boundaries split around the removed bucket
  have hIsplit : bounds bs 0
      = bounds (bs.take pc) 0 ++ ((Q.length + 1) :: (bounds R (Q.length + 1) ++ [])) := by
    conv_lhs => rw [← hsplitbs]
    rw [bounds_append, bounds_append]
    simp only [bounds, List.flatten_cons, List.flatten_nil, List.append_nil,
      List.append_assoc, Nat.zero_add, List.nil_append, List.cons_append]
    rw [hQlen1, hL0, hP]
    congr 2
    rw [List.flatten_append]
    simp
  obtain ⟨d2, hshift⟩ := removeShift_spec (pcMax - pc) R Q (bpc.getLastD 0)
    (adv ++ fr) (bounds (bs.take pc) 0) [] (pc + 1) hRlen
    (by rw [length_bounds, hlt])
  -- positions for the final advisor move
  have hflatlen : bs.flatten.length = Q.length + 1 + R.flatten.length := by
    rw [hflatsplit, hQlen1]
    simp only [List.length_append, hL0]
    omega
  have hI1pcMax : ((bounds (bs.take pc) 0)
      ++ (starts R Q.length ++ ((Q.length + R.flatten.length + 1) :: ([] : List Nat)))).getD pcMax 0
      = Q.length + R.flatten.length + 1 := by
    rw [List.getD_append_right _ _ 0 _ (by rw [length_bounds, hlt]; omega)]
    rw [List.getD_append_right _ _ 0 _ (by rw [length_starts, length_bounds, hlt, hRlen])]
    rw [show pcMax - (bounds (bs.take pc) 0).length - (starts R Q.length).length = 0 by
      rw [length_starts, length_bounds, hlt, hRlen]; omega]
    rfl
  have hB1len : (Q ++ (R.map rotBack).flatten).length = Q.length + R.flatten.length := by
    rw [List.length_append, flatten_map_rotBack_length]
  have hreadE : (Q ++ ((R.map rotBack).flatten ++ d2 :: (adv ++ fr))).getD
      (bs.flatten.length + adv.length - 1) 0 = adv.getLastD d2 := by
    rw [show Q ++ ((R.map rotBack).flatten ++ d2 :: (adv ++ fr))
      = (Q ++ (R.map rotBack).flatten) ++ d2 :: (adv ++ fr) by simp [List.append_assoc]]
    rw [List.getD_append_right _ _ 0 _ (by rw [hB1len, hflatlen]; omega)]
    rw [show bs.flatten.length + adv.length - 1 - (Q ++ (R.map rotBack).flatten).length
      = adv.length by rw [hB1len, hflatlen]; omega]
    exact getD_cons_append_lastPos adv fr d2
  have hsetd2 : (Q ++ ((R.map rotBack).flatten ++ d2 :: (adv ++ fr))).set
      (Q.length + R.flatten.length + 1 - 1) (adv.getLastD d2)
      = Q ++ ((R.map rotBack).flatten ++ (rotBack adv ++ (adv.getLastD d2) :: fr)) := by
    rw [show Q ++ ((R.map rotBack).flatten ++ d2 :: (adv ++ fr))
      = (Q ++ (R.map rotBack).flatten) ++ d2 :: (adv ++ fr) by simp [List.append_assoc]]
    rw [set_append_right _ (by rw [hB1len]; omega)]
    rw [show Q.length + R.flatten.length + 1 - 1 - (Q ++ (R.map rotBack).flatten).length
      = 0 by rw [hB1len]; omega]
    rw [show ((d2 :: (adv ++ fr)).set 0 (adv.getLastD d2))
      = adv.getLastD d2 :: (adv ++ fr) from rfl]
    rw [show adv.getLastD d2 :: (adv ++ fr) = (adv.getLastD d2 :: adv) ++ fr from rfl]
    rw [getLastD_cons_self adv d2]
    simp [List.append_assoc]
  have hI2 : ((bounds (bs.take pc) 0)
      ++ (starts R Q.length ++ ((Q.length + R.flatten.length + 1) :: ([] : List Nat)))).set
        pcMax (Q.length + R.flatten.length + 1 - 1)
      = bounds (bs.take pc) 0 ++ (Q.length :: bounds R Q.length) := by
    rw [set_append_right _ (by rw [length_bounds, hlt]; omega)]
    rw [set_append_right _ (by rw [length_starts, length_bounds, hlt, hRlen])]
    rw [show pcMax - (bounds (bs.take pc) 0).length - (starts R Q.length).length = 0 by
      rw [length_starts, length_bounds, hlt, hRlen]; omega]
    rw [show ((Q.length + R.flatten.length + 1) :: ([] : List Nat)).set 0
      (Q.length + R.flatten.length + 1 - 1) = [Q.length + R.flatten.length] from rfl]
    rw [← starts_append_bounds R Q.length]
  refine ⟨adv.getLastD d2, ?_⟩
  simp only [remove, ofB]
  rw [hstar0, hfind, hbpcend, hreadlast, hb0]
  rw [show pcMax + 1 = (pc + 1) + (pcMax - pc) by omega, hIsplit, hshift]
  simp only []
  rw [hI1pcMax, hreadE, hsetd2, hI2]
  simp only [SubArr.mk.injEq]
  refine ⟨?_, ?_, ?_, trivial, trivial, trivial⟩
  · rw [List.flatten_append]
    simp only [List.flatten_cons, hQ, hP, List.append_assoc]
  · simp only [List.flatten_append, List.flatten_cons, List.length_append,
      length_swapRemove, length_rotBack, flatten_map_rotBack_length]
    rw [hflatlen, hQlen]
    simp only [hL0, hP]
    omega
  · rw [bounds_append]
    simp only [bounds, Nat.zero_add, List.cons_append, List.nil_append]
    have hbR : bounds (R.map rotBack) ((bs.take pc).flatten.length + (swapRemove bpc k).length)
        = bounds R Q.length := by
      have hcl : (R.map rotBack).map List.length = R.map List.length := by
        rw [List.map_map]
        exact List.map_congr_left (fun a _ => length_rotBack a)
      rw [bounds_congr_length hcl]
      congr 1
      rw [hQlen, length_swapRemove, hL0, hP]
      omega
    rw [hbR]
    congr 2
    rw [hQlen, length_swapRemove, hL0, hP]
    omega

/- ===================== The advisor remove law ===================== -/

theorem removeAdv_ofB (pcMax freeBits : Nat) (bs : List (List Nat)) (adv fr : List Nat)
    (fab ns : Nat) (hot : Bool) (a : Nat)
    (hlen : bs.length = pcMax + 1) (ha : a ∈ adv) :
    removeAdv pcMax freeBits (ofB bs adv fr fab ns hot) a
      = ofB bs (swapRemove adv (adv.indexOf a)) ((adv.getLastD 0) :: fr)
          (fab + (1 <<< freeBits)) (ns - 1) hot := by
  set k := adv.indexOf a with hk
  have hkp : k < adv.length := List.indexOf_lt_length.mpr ha
  have hane : adv ≠ [] := by
    intro hc
    rw [hc] at ha
    simp at ha
  have hIpcMax : (bounds bs 0).getD pcMax 0 = bs.flatten.length := by
    rw [bounds_getD 0 (by omega), show pcMax + 1 = bs.length by omega, List.take_length bs]
    omega
  have hfind : findFrom (bs.flatten ++ adv ++ fr) a bs.flatten.length
      = bs.flatten.length + k := by
    rw [List.append_assoc]
    exact findFrom_spec adv bs.flatten fr a ha
  have hread : (bs.flatten ++ adv ++ fr).getD (bs.flatten.length + adv.length - 1) 0
      = adv.getLastD 0 := by
    rw [List.append_assoc]
    rw [List.getD_append_right _ _ 0 _ (by omega)]
    rw [show bs.flatten.length + adv.length - 1 - bs.flatten.length = adv.length - 1 by
      omega]
    rw [getD_append_left 0 (by omega)]
    exact getD_length_sub_one hane
  have hset : (bs.flatten ++ adv ++ fr).set (bs.flatten.length + k) (adv.getLastD 0)
      = bs.flatten ++ swapRemove adv k ++ ((adv.getLastD 0) :: fr) := by
    rw [List.append_assoc]
    rw [set_append_right _ (by omega)]
    rw [show bs.flatten.length + k - bs.flatten.length = k by omega]
    rw [set_append_left _ hkp, set_getLastD_split adv k hkp]
    simp [List.append_assoc]
  simp only [removeAdv, ofB]
  rw [hIpcMax, hfind, hread, hset]
  simp only [SubArr.mk.injEq]
  refine ⟨trivial, ?_, trivial, trivial, trivial, trivial⟩
  rw [length_swapRemove]
  omega

/- ===================== Extraction of slices from canonical states ===================== -/

theorem bucketSlice_ofB (pcMax : Nat) (bs : List (List Nat)) (adv fr : List Nat)
    (fab ns : Nat) (hot : Bool) (c : Nat)
    (hlen : bs.length = pcMax + 1) (hc : c ≤ pcMax) :
    bucketSlice (ofB bs adv fr fab ns hot) c = bs.getD c [] := by
  have hc1 : c < bs.length := by omega
  have hidxc : (bounds bs 0).getD c 0 = (bs.take (c + 1)).flatten.length := by
    rw [bounds_getD 0 (by omega)]
    omega
  have hstar : (if c = 0 then 0 else (bounds bs 0).getD (c - 1) 0)
      = (bs.take c).flatten.length := by
    by_cases h0 : c = 0
    · rw [if_pos h0, h0]
      simp
    · rw [if_neg h0, bounds_getD 0 (by omega), show c - 1 + 1 = c by omega]
      omega
  have hsplit : bs.flatten ++ adv ++ fr
      = (bs.take (c + 1)).flatten ++ ((bs.drop (c + 1)).flatten ++ (adv ++ fr)) := by
    conv_lhs => rw [show bs = bs.take (c + 1) ++ bs.drop (c + 1) from
      (List.take_append_drop (c + 1) bs).symm]
    rw [List.flatten_append]
    simp [List.append_assoc]
  have htk : (bs.flatten ++ adv ++ fr).take ((bs.take (c + 1)).flatten.length)
      = (bs.take (c + 1)).flatten := by
    rw [hsplit]
    exact List.take_left _ _
  have htsucc : (bs.take (c + 1)).flatten = (bs.take c).flatten ++ bs.getD c [] := by
    rw [take_succ_getD bs c hc1, List.flatten_append]
    simp
  simp only [bucketSlice, ofB]
  rw [hidxc, hstar, htk, htsucc]
  exact List.drop_left _ _

theorem advSlice_ofB (pcMax : Nat) (bs : List (List Nat)) (adv fr : List Nat)
    (fab ns : Nat) (hot : Bool) (hlen : bs.length = pcMax + 1) :
    advSlice pcMax (ofB bs adv fr fab ns hot) = adv := by
  have hIpcMax : (bounds bs 0).getD pcMax 0 = bs.flatten.length := by
    rw [bounds_getD 0 (by omega), show pcMax + 1 = bs.length by omega, List.take_length bs]
    omega
  have htk : (bs.flatten ++ adv ++ fr).take (bs.flatten.length + adv.length)
      = bs.flatten ++ adv := by
    rw [show bs.flatten.length + adv.length = (bs.flatten ++ adv).length by
      rw [List.length_append]]
    exact List.take_left (bs.flatten ++ adv) fr
  simp only [advSlice, ofB]
  rw [hIpcMax, htk]
  exact List.drop_left _ _

theorem flatten_take_mono (bs : List (List Nat)) (m : Nat) :
    (bs.take m).flatten.length ≤ (bs.take (m + 1)).flatten.length := by
  rw [List.take_succ, List.flatten_append, List.length_append]
  omega

theorem idxMono_ofB (pcMax : Nat) (bs : List (List Nat)) (adv fr : List Nat)
    (fab ns : Nat) (hot : Bool) (hlen : bs.length = pcMax + 1) :
    idxMono pcMax (ofB bs adv fr fab ns hot) := by
  refine ⟨?_, ?_, ?_⟩
  · intro j hj
    simp only [ofB]
    rw [bounds_getD 0 (by omega), bounds_getD 0 (by omega)]
    have := flatten_take_mono bs (j + 1)
    omega
  · simp only [ofB]
    rw [bounds_getD 0 (by omega), show pcMax + 1 = bs.length by omega, List.take_length bs]
    omega
  · simp only [ofB, List.length_append]
    omega

/- ===================== Permutation and nodup tools ===================== -/

theorem swapRemove_perm (l : List Nat) (k : Nat) (hk : k < l.length) :
    (swapRemove l k).Perm (l.eraseIdx k) := by
  induction l generalizing k with
  | nil => simp at hk
  | cons a t ih =>
      cases k with
      | zero =>
          simp only [swapRemove, List.set_cons_zero, List.eraseIdx_cons_zero]
          cases t with
          | nil => simp
          | cons c u =>
              rw [show ((a :: c :: u).getLastD 0 :: c :: u).dropLast
                = (a :: c :: u).getLastD 0 :: (c :: u).dropLast from List.dropLast_cons₂]
              have hkey : (c :: u).dropLast ++ [(a :: c :: u).getLastD 0] = c :: u := by
                rw [List.getLastD_cons]
                rw [getLastD_irrel (by simp) a 0]
                exact dropLast_append_getLastD (by simp)
              conv_rhs => rw [← hkey]
              simpa using (@List.perm_append_comm Nat
                [(a :: c :: u).getLastD 0] ((c :: u).dropLast))
      | succ k =>
          simp only [List.length_cons, Nat.succ_lt_succ_iff] at hk
          have htne : t ≠ [] := by
            intro hc
            rw [hc] at hk
            simp at hk
          simp only [swapRemove, List.set_cons_succ, List.eraseIdx_cons_succ]
          rw [List.getLastD_cons, getLastD_irrel htne a 0]
          obtain ⟨y, ys, hys⟩ := List.exists_cons_of_ne_nil
            (@length_set_pos t k (t.getLastD 0) htne)
          rw [hys, List.dropLast_cons₂, ← hys]
          exact List.Perm.cons a (by
            have := ih k hk
            rw [swapRemove] at this
            exact this)

theorem nodup_of_rot1 {l : List Nat} (h : l.Nodup) : (rot1 l).Nodup :=
  ((rot1_perm l).nodup_iff).mpr h

theorem nodup_of_rotBack {l : List Nat} (h : l.Nodup) : (rotBack l).Nodup :=
  ((rotBack_perm l).nodup_iff).mpr h

theorem nodup_swapRemove {l : List Nat} (k : Nat) (hk : k < l.length) (h : l.Nodup) :
    (swapRemove l k).Nodup :=
  ((swapRemove_perm l k hk).nodup_iff).mpr (List.Nodup.eraseIdx k h)

theorem mem_rot1 {l : List Nat} {x : Nat} : x ∈ rot1 l ↔ x ∈ l :=
  (rot1_perm l).mem_iff

/-- Reading bucket c of the updated bucket list: buckets before pc are
unchanged, bucket pc is replaced by X, later buckets have f applied. -/
theorem getD_bucket_update (bs : List (List Nat)) (pc : Nat) (X : List Nat)
    (f : List Nat → List Nat) (c : Nat) (hpc : pc < bs.length) (hc : c < bs.length) :
    (bs.take pc ++ X :: (bs.drop (pc + 1)).map f).getD c []
      = if c < pc then bs.getD c []
        else if c = pc then X
        else f (bs.getD c []) := by
  have hlt : (bs.take pc).length = pc := length_take_of_le (by omega)
  by_cases h1 : c < pc
  · rw [if_pos h1, getD_append_left [] (by omega)]
    simp only [List.getD_eq_getElem?_getD, List.getElem?_take]
    rw [if_pos h1]
  · rw [if_neg h1]
    rw [List.getD_append_right _ _ [] c (by omega)]
    by_cases h2 : c = pc
    · rw [if_pos h2, show c - (bs.take pc).length = 0 by omega]
      rfl
    · rw [if_neg h2]
      rw [show c - (bs.take pc).length = (c - pc - 1) + 1 by omega, List.getD_cons_succ]
      simp only [List.getD_eq_getElem?_getD, List.getElem?_map, List.getElem?_drop]
      rw [show pc + 1 + (c - pc - 1) = c by omega]
      have hcc : c < bs.length := hc
      rw [List.getElem?_eq_getElem hcc]
      rfl

/- ===================== Advising the subscribed advisors ===================== -/

/-- Outcome of one call p.advise(home, a, d) as the switch of
VarImp::advise reads it: ES_FIX, ES_FAILED or ES_NOFIX. -/
inductive AdvStat where
  | fix
  | failed
  | nofix
  deriving DecidableEq, Repr

/-- What one advisor invocation does: its execution status, and whether
the advisor disposed itself during the call (ES_SUBSUMED_FIX or
ES_SUBSUMED_NOFIX, core.hpp lines 2154 to 2166).  Disposal only marks
the advisor (Advisor::dispose, lines 2143 to 2152); it does not change
the subscription array while the iteration runs. -/
structure AdvResult where
  stat : AdvStat
  disposes : Bool
  deriving DecidableEq, Repr

/-- Observable effect of VarImp::advise: its boolean result, the
advisors whose propagators were invoked in order, the (propagator,
event) pairs scheduled, and the advisors that disposed themselves. -/
structure AdviseOut where
  res : Bool
  visited : List Nat
  scheduled : List (Nat × Int)
  disposed : List Nat
  deriving DecidableEq, Repr

/-- The do-while loop of VarImp::advise (core.hpp lines 2666 to 2689):
positions la up to le of the array are read in forward order; ES_FAILED
returns false at once, ES_NOFIX schedules the advisors propagator with
the event, ES_FIX does nothing. -/
def adviseIter (advFn : Nat → AdvResult) (propOf : Nat → Nat) (me : Int)
    (b : List Nat) (la le : Nat) : AdviseOut :=
  if _h : la < le then
    let a := b.getD la 0
    match (advFn a).stat with
    | AdvStat.failed =>
        { res := false, visited := [a], scheduled := [],
          disposed := if (advFn a).disposes then [a] else [] }
    | AdvStat.fix =>
        let o := adviseIter advFn propOf me b (la + 1) le
        { res := o.res, visited := a :: o.visited, scheduled := o.scheduled,
          disposed := (if (advFn a).disposes then [a] else []) ++ o.disposed }
    | AdvStat.nofix =>
        let o := adviseIter advFn propOf me b (la + 1) le
        { res := o.res, visited := a :: o.visited,
          scheduled := (propOf a, me) :: o.scheduled,
          disposed := (if (advFn a).disposes then [a] else []) ++ o.disposed }
  else { res := true, visited := [], scheduled := [], disposed := [] }
termination_by le - la

/-- VarImp::advise (core.hpp lines 2658 to 2691): la is
actorNonZero(pc_max + 1), le is base + entries; with no advisor
subscribed the call returns true at once. -/
def advise (pcMax : Nat) (advFn : Nat → AdvResult) (propOf : Nat → Nat)
    (me : Int) (s : SubArr) : AdviseOut :=
  let la := s.idx.getD pcMax 0
  let le := s.entries
  if la = le then { res := true, visited := [], scheduled := [], disposed := [] }
  else adviseIter advFn propOf me s.base la le

/-- The same iteration as structural recursion over the advisor list. -/
def adviseList (advFn : Nat → AdvResult) (propOf : Nat → Nat) (me : Int) :
    List Nat → AdviseOut
  | [] => { res := true, visited := [], scheduled := [], disposed := [] }
  | a :: t =>
    match (advFn a).stat with
    | AdvStat.failed =>
        { res := false, visited := [a], scheduled := [],
          disposed := if (advFn a).disposes then [a] else [] }
    | AdvStat.fix =>
        let o := adviseList advFn propOf me t
        { res := o.res, visited := a :: o.visited, scheduled := o.scheduled,
          disposed := (if (advFn a).disposes then [a] else []) ++ o.disposed }
    | AdvStat.nofix =>
        let o := adviseList advFn propOf me t
        { res := o.res, visited := a :: o.visited,
          scheduled := (propOf a, me) :: o.scheduled,
          disposed := (if (advFn a).disposes then [a] else []) ++ o.disposed }

/-- The advisors up to and including the first failing one. -/
def upToFail (advFn : Nat → AdvResult) : List Nat → List Nat
  | [] => []
  | a :: t =>
      if (advFn a).stat = AdvStat.failed then [a] else a :: upToFail advFn t

/- ===================== Cloning: forwarding and recovery ===================== -/

/-- Modelled from the spec: the support layer's pointer tagging.  A
variable implementation address is at least word aligned, so its low
bit is free; mark sets it on an even address. -/
def mark (a : Nat) : Nat := a + 1

/-- Modelled from the spec: a pointer is marked when its low bit is set. -/
def marked (a : Nat) : Bool := a % 2 == 1

/-- Modelled from the spec: clearing the mark bit recovers the address. -/
def unmark (a : Nat) : Nat := a - a % 2

/-- A variable implementation as the cloning code sees it: the base
pointer (an address, reused as the forwarding pointer during cloning),
the entries count, the union u as a list of unsigned int words (the
idx array overlaid with the registration pointer u.next), and
free_and_bits. -/
structure VarImpC where
  base : Nat
  entries : Nat
  uidx : List Nat
  freeAndBits : Nat
  deriving DecidableEq, Repr

/-- Size of the union u in unsigned int words: pc_max + 1 index words,
but at least enough to hold the pointer u.next. -/
def uWords (pcMax ptrWords : Nat) : Nat := max (pcMax + 1) ptrWords

/-- Storing the registration pointer u.next overwrites the first
pointer-sized run of idx words; a wider pointer is split into 2^32
word chunks. -/
def writeNext (ptrWords : Nat) (w : List Nat) (ptr : Nat) : List Nat :=
  if ptrWords = 1 then w.set 0 ptr
  else (w.set 0 (ptr % 2 ^ 32)).set 1 (ptr / 2 ^ 32)

/-- VarImp::copied (core.hpp lines 2403 to 2407). -/
def copied (v : VarImpC) : Bool := marked v.base

/-- VarImp::forward (core.hpp lines 2409 to 2414). -/
def forward (v : VarImpC) : Nat := unmark v.base

/-- The cloning constructor VarImp(Space&, bool, VarImp&) (core.hpp
lines 2423 to 2445): the clone keeps only the free bits of
free_and_bits and saves base, entries and the idx words 0 .. pc_max of
the original x; then x.base becomes the marked pointer to the clone
and x.u.next the head of the registration list.  Returns (clone, x
after registration).  Union words of the clone past the copied idx
words are uninitialized and modelled by 0. -/
def registerClone (pcMax ptrWords freeBits : Nat) (x : VarImpC)
    (cloneAddr regHead : Nat) : VarImpC × VarImpC :=
  let clone : VarImpC :=
    { base := x.base
      entries := x.entries
      uidx := x.uidx.take (pcMax + 1)
        ++ List.replicate (uWords pcMax ptrWords - (pcMax + 1)) 0
      freeAndBits := x.freeAndBits &&& ((1 <<< freeBits) - 1) }
  let x1 : VarImpC :=
    { x with base := mark cloneAddr, uidx := writeNext ptrWords x.uidx regHead }
  (clone, x1)

/-- The recovery phase of VarImp::update(VarImp*, ActorLink**&)
(core.hpp lines 2693 to 2724), run on the clone c with x the original:
x gets back its base and the union words clobbered by the registration
pointer; the clone then takes the fresh subscription area.  Returns
(clone, x after recovery).  The word copy of the subscriptions through
the actors forwarding pointers only writes the fresh area and is not
modelled. -/
def updateReset (pcMax ptrWords : Nat) (c x : VarImpC) (newSub : Nat) :
    VarImpC × VarImpC :=
  let x1 : VarImpC :=
    { x with
      base := c.base
      uidx := if 0 < pcMax ∧ 1 < ptrWords
        then (x.uidx.set 0 (c.uidx.getD 0 0)).set 1 (c.uidx.getD 1 0)
        else x.uidx.set 0 (c.uidx.getD 0 0) }
  let c1 : VarImpC := { c with base := newSub }
  (c1, x1)

theorem getD_set_self (l : List Nat) (i v : Nat) (hi : i < l.length) :
    (l.set i v).getD i 0 = v := by
  induction l generalizing i with
  | nil => simp at hi
  | cons a t ih =>
      cases i with
      | zero => rfl
      | succ k =>
          simp only [List.set_cons_succ, List.getD_cons_succ]
          exact ih k (by simpa using hi)

theorem getD_set_ne (l : List Nat) (i j v : Nat) (hij : i ≠ j) :
    (l.set i v).getD j 0 = l.getD j 0 := by
  induction l generalizing i j with
  | nil => rfl
  | cons a t ih =>
      cases i with
      | zero =>
          cases j with
          | zero => exact absurd rfl hij
          | succ k => rfl
      | succ m =>
          cases j with
          | zero => rfl
          | succ k =>
              simp only [List.set_cons_succ, List.getD_cons_succ]
              exact ih m k (by omega)

theorem getD_take_lt (l : List Nat) (n i : Nat) (hi : i < n) :
    (l.take n).getD i 0 = l.getD i 0 := by
  induction l generalizing n i with
  | nil => simp
  | cons a t ih =>
      cases n with
      | zero => omega
      | succ m =>
          cases i with
          | zero => rfl
          | succ k =>
              simp only [List.take_succ_cons, List.getD_cons_succ]
              exact ih m k (by omega)

/- ===================== Shared handles and reference counting ===================== -/

namespace SH

/-- Global state of the shared handle machinery: the use counter of every
object (SharedHandle::Object::use_cnt, core.hpp line 159), which objects
are currently allocated on the process heap, which have been deleted,
and the live handles together with the object each one references.
Objects and handles are named by natural numbers. -/
structure ShState where
  cnt : Nat → Nat
  allocated : Nat → Bool
  dead : Nat → Bool
  handles : List (Nat × Option Nat)

/-- Number of live handles referencing object o. -/
def refCount (s : ShState) (o : Nat) : Nat :=
  s.handles.countP (fun e => e.2 == some o)

/-- Point handle h at value v, leaving all other handles unchanged. -/
def setHandle (hs : List (Nat × Option Nat)) (h : Nat) (v : Option Nat) :
    List (Nat × Option Nat) :=
  hs.map (fun e => if e.1 = h then (h, v) else e)

/-- SharedHandle::subscribe (core.hpp lines 1780 to 1783): if the handle
references an object, increment its use counter. -/
def subscribe (s : ShState) (h : Nat) : ShState :=
  match (s.handles.lookup h).getD none with
  | none => s
  | some o => { s with cnt := fun q => if q = o then s.cnt o + 1 else s.cnt q }

/-- SharedHandle::cancel (core.hpp lines 1784 to 1789): if the handle
references an object, decrement its counter and delete the object when
the counter reaches zero; in every case null the handle. -/
def cancel (s : ShState) (h : Nat) : ShState :=
  match (s.handles.lookup h).getD none with
  | none => { s with handles := setHandle s.handles h none }
  | some o =>
      if s.cnt o - 1 = 0 then
        { s with
          cnt := fun q => if q = o then 0 else s.cnt q,
          allocated := fun q => if q = o then false else s.allocated q,
          dead := fun q => if q = o then true else s.dead q,
          handles := setHandle s.handles h none }
      else
        { s with
          cnt := fun q => if q = o then s.cnt o - 1 else s.cnt q,
          handles := setHandle s.handles h none }

/-- The shared handle operations of the claim.  Identifiers are chosen by
the caller; an operation on an identifier that violates the C++ object
model (constructing a handle that already exists, reading a handle or an
object that does not) leaves the state unchanged. -/
inductive ShOp where
  | newObject (o : Nat)
  | construct (h : Nat) (ob : Option Nat)
  | copyConstruct (h g : Nat)
  | assign (h g : Nat)
  | updateShare (h g : Nat)
  | destroy (h : Nat)

/-- One shared handle operation (core.hpp lines 1768 to 1827).
Construction from an object and copy construction subscribe after
storing the object; assignment guards against self assignment, then
cancels, stores and subscribes; updateShare models update with share
true during cloning, where the receiving handle is the default
constructed member of the clone (object NULL, line 1728); destruction
cancels and removes the handle. -/
def step (s : ShState) : ShOp → ShState
  | ShOp.newObject o =>
      if s.allocated o || s.dead o then s
      else { s with allocated := fun q => if q = o then true else s.allocated q,
                    cnt := fun q => if q = o then 0 else s.cnt q }
  | ShOp.construct h ob =>
      if (s.handles.lookup h).isSome then s
      else match ob with
        | none => { s with handles := (h, none) :: s.handles }
        | some o =>
            if s.allocated o then
              subscribe { s with handles := (h, some o) :: s.handles } h
            else s
  | ShOp.copyConstruct h g =>
      if (s.handles.lookup h).isSome then s
      else match s.handles.lookup g with
        | none => s
        | some ob => subscribe { s with handles := (h, ob) :: s.handles } h
  | ShOp.assign h g =>
      if h = g then s
      else if (s.handles.lookup h).isSome && (s.handles.lookup g).isSome then
        let s1 := cancel s h
        let ob := (s1.handles.lookup g).getD none
        subscribe { s1 with handles := setHandle s1.handles h ob } h
      else s
  | ShOp.updateShare h g =>
      if (s.handles.lookup h).isSome then s
      else match s.handles.lookup g with
        | none => s
        | some ob =>
            match ob with
            | none => { s with handles := (h, none) :: s.handles }
            | some o => subscribe { s with handles := (h, some o) :: s.handles } h
  | ShOp.destroy h =>
      if (s.handles.lookup h).isSome then
        let s1 := cancel s h
        { s1 with handles := s1.handles.filter (fun e => ! (e.1 == h)) }
      else s

/-- Run a sequence of shared handle operations. -/
def runOps (ops : List ShOp) (s : ShState) : ShState :=
  ops.foldl step s

/-- The reference counting invariant: handle identities are unique, the
use counter of every allocated object equals the number of live handles
referencing it, every referenced object is allocated, and no object is
both allocated and dead. -/
def good (s : ShState) : Prop :=
  (s.handles.map Prod.fst).Nodup ∧
  (∀ o, s.allocated o = true → s.cnt o = refCount s o) ∧
  (∀ e ∈ s.handles, ∀ o, e.2 = some o → s.allocated o = true) ∧
  (∀ o, s.allocated o = true → s.dead o = false)

theorem lookup_eq_none_iff (hs : List (Nat × Option Nat)) (h : Nat) :
    hs.lookup h = none ↔ h ∉ hs.map Prod.fst := by
  induction hs with
  | nil => simp
  | cons e t ih =>
      obtain ⟨k, v⟩ := e
      by_cases hk : h = k
      · subst hk
        simp [List.lookup]
      · simp only [List.lookup, beq_iff_eq, if_neg hk, List.map_cons, List.mem_cons]
        rw [show (h == k) = false by simp [hk]]
        simp only [List.map_cons, List.mem_cons] at ih ⊢
        constructor
        · intro hn
          exact fun hc => hc.elim (fun he => hk he) (fun he => (ih.mp hn) he)
        · intro hn
          exact ih.mpr (fun he => hn (Or.inr he))

theorem lookup_mem (hs : List (Nat × Option Nat)) (h : Nat) (v : Option Nat)
    (hl : hs.lookup h = some v) : (h, v) ∈ hs := by
  induction hs with
  | nil => simp [List.lookup] at hl
  | cons e t ih =>
      obtain ⟨k, b⟩ := e
      by_cases hk : h = k
      · subst hk
        simp [List.lookup] at hl
        subst hl
        exact List.mem_cons_self _ _
      · rw [show List.lookup h ((k, b) :: t) = List.lookup h t by
          simp [List.lookup, show (h == k) = false by simp [hk]]] at hl
        exact List.mem_cons_of_mem _ (ih hl)

theorem setHandle_id (hs : List (Nat × Option Nat)) (h : Nat) (v : Option Nat)
    (hn : h ∉ hs.map Prod.fst) : setHandle hs h v = hs := by
  induction hs with
  | nil => rfl
  | cons e t ih =>
      simp only [List.map_cons, List.mem_cons] at hn
      push_neg at hn
      simp only [setHandle, List.map_cons]
      rw [if_neg (fun hc => hn.1 hc.symm)]
      have := ih hn.2
      simp only [setHandle] at this
      rw [this]

theorem keys_setHandle (hs : List (Nat × Option Nat)) (h : Nat) (v : Option Nat) :
    (setHandle hs h v).map Prod.fst = hs.map Prod.fst := by
  induction hs with
  | nil => rfl
  | cons e t ih =>
      simp only [setHandle, List.map_cons] at ih ⊢
      by_cases he : e.1 = h
      · rw [if_pos he, ih, he]
      · rw [if_neg he, ih]

theorem lookup_setHandle_self (hs : List (Nat × Option Nat)) (h : Nat) (v : Option Nat)
    (hex : (hs.lookup h).isSome = true) : (setHandle hs h v).lookup h = some v := by
  induction hs with
  | nil => simp [List.lookup] at hex
  | cons e t ih =>
      obtain ⟨k, b⟩ := e
      by_cases hk : h = k
      · subst hk
        rw [show setHandle ((h, b) :: t) h v = (h, v) :: setHandle t h v by
          simp [setHandle]]
        simp [List.lookup]
      · rw [show List.lookup h ((k, b) :: t) = List.lookup h t by
          simp [List.lookup, show (h == k) = false by simp [hk]]] at hex
        simp only [setHandle, List.map_cons]
        rw [if_neg (by simpa using fun hc => hk hc.symm)]
        have := ih hex
        simp only [setHandle] at this
        rw [show List.lookup h ((k, b) :: List.map
            (fun e => if e.1 = h then (h, v) else e) t) = List.lookup h (List.map
            (fun e => if e.1 = h then (h, v) else e) t) by
          simp [List.lookup, show (h == k) = false by simp [hk]]]
        exact this

theorem lookup_setHandle_ne (hs : List (Nat × Option Nat)) (h g : Nat) (v : Option Nat)
    (hg : g ≠ h) : (setHandle hs h v).lookup g = hs.lookup g := by
  induction hs with
  | nil => rfl
  | cons e t ih =>
      obtain ⟨k, b⟩ := e
      simp only [setHandle, List.map_cons] at ih ⊢
      by_cases hk : k = h
      · subst hk
        rw [if_pos rfl]
        rw [show List.lookup g ((k, v) :: List.map
            (fun e => if e.1 = k then (k, v) else e) t) = List.lookup g (List.map
            (fun e => if e.1 = k then (k, v) else e) t) by
          simp [List.lookup, show (g == k) = false by simp [hg]]]
        rw [show List.lookup g ((k, b) :: t) = List.lookup g t by
          simp [List.lookup, show (g == k) = false by simp [hg]]]
        exact ih
      · rw [if_neg hk]
        by_cases hgk : g = k
        · subst hgk
          simp [List.lookup]
        · rw [show List.lookup g ((k, b) :: List.map
              (fun e => if e.1 = h then (h, v) else e) t) = List.lookup g (List.map
              (fun e => if e.1 = h then (h, v) else e) t) by
            simp [List.lookup, show (g == k) = false by simp [hgk]]]
          rw [show List.lookup g ((k, b) :: t) = List.lookup g t by
            simp [List.lookup, show (g == k) = false by simp [hgk]]]
          exact ih

theorem mem_setHandle (hs : List (Nat × Option Nat)) (h : Nat) (v : Option Nat)
    (e : Nat × Option Nat) (he : e ∈ setHandle hs h v) :
    e = (h, v) ∨ (e ∈ hs ∧ e.1 ≠ h) := by
  simp only [setHandle, List.mem_map] at he
  obtain ⟨a, ha, hae⟩ := he
  by_cases h1 : a.1 = h
  · rw [if_pos h1] at hae
    exact Or.inl hae.symm
  · rw [if_neg h1] at hae
    exact Or.inr ⟨hae ▸ ha, hae ▸ h1⟩

theorem two_le_countP (l : List (Nat × Option Nat)) (p : Nat × Option Nat → Bool)
    (e₁ e₂ : Nat × Option Nat) (h1 : e₁ ∈ l) (h2 : e₂ ∈ l) (hne : e₁ ≠ e₂)
    (hp1 : p e₁ = true) (hp2 : p e₂ = true) : 2 ≤ l.countP p := by
  induction l with
  | nil => simp at h1
  | cons a t ih =>
      rcases List.mem_cons.mp h1 with rfl | h1'
      · rcases List.mem_cons.mp h2 with rfl | h2'
        · exact absurd rfl hne
        · have hpos : 0 < t.countP p := List.countP_pos_iff.mpr ⟨e₂, h2', hp2⟩
          rw [List.countP_cons, hp1]
          simp only [if_pos]
          omega
      · rcases List.mem_cons.mp h2 with rfl | h2'
        · have hpos : 0 < t.countP p := List.countP_pos_iff.mpr ⟨e₁, h1', hp1⟩
          rw [List.countP_cons, hp2]
          simp only [if_pos]
          omega
        · have := ih h1' h2'
          simp only [List.countP_cons]
          omega

theorem subscribe_of_lookup_none (s : ShState) (h : Nat)
    (hl : (s.handles.lookup h).getD none = none) : subscribe s h = s := by
  unfold subscribe
  rw [hl]

theorem subscribe_of_lookup_some (s : ShState) (h o : Nat)
    (hl : (s.handles.lookup h).getD none = some o) :
    subscribe s h = { s with cnt := fun q => if q = o then s.cnt o + 1 else s.cnt q } := by
  unfold subscribe
  rw [hl]

theorem cancel_handles (s : ShState) (h : Nat) :
    (cancel s h).handles = setHandle s.handles h none := by
  unfold cancel
  rcases hE : (s.handles.lookup h).getD none with _ | o
  · rfl
  · dsimp only
    by_cases hz : s.cnt o - 1 = 0
    · rw [if_pos hz]
    · rw [if_neg hz]

theorem cancel_eq_of_last (s : ShState) (h o : Nat)
    (hl : (s.handles.lookup h).getD none = some o) (hz : s.cnt o - 1 = 0) :
    cancel s h =
      { s with
        cnt := fun q => if q = o then 0 else s.cnt q,
        allocated := fun q => if q = o then false else s.allocated q,
        dead := fun q => if q = o then true else s.dead q,
        handles := setHandle s.handles h none } := by
  unfold cancel
  rw [hl]
  dsimp only
  rw [if_pos hz]

theorem cancel_eq_of_more (s : ShState) (h o : Nat)
    (hl : (s.handles.lookup h).getD none = some o) (hz : ¬ s.cnt o - 1 = 0) :
    cancel s h =
      { s with
        cnt := fun q => if q = o then s.cnt o - 1 else s.cnt q,
        handles := setHandle s.handles h none } := by
  unfold cancel
  rw [hl]
  dsimp only
  rw [if_neg hz]

theorem cancel_eq_of_none (s : ShState) (h : Nat)
    (hl : (s.handles.lookup h).getD none = none) :
    cancel s h = { s with handles := setHandle s.handles h none } := by
  unfold cancel
  rw [hl]

theorem countP_setHandle (hs : List (Nat × Option Nat)) (h : Nat) (ob v : Option Nat)
    (o : Nat) (hnd : (hs.map Prod.fst).Nodup) (hl : hs.lookup h = some ob) :
    (setHandle hs h v).countP (fun e => e.2 == some o) + (if ob = some o then 1 else 0)
      = hs.countP (fun e => e.2 == some o) + (if v = some o then 1 else 0) := by
  induction hs with
  | nil => simp [List.lookup] at hl
  | cons e t ih =>
      obtain ⟨k, b⟩ := e
      simp only [List.map_cons, List.nodup_cons] at hnd
      by_cases hk : h = k
      · subst hk
        rw [show List.lookup h ((h, b) :: t) = some b by simp [List.lookup]] at hl
        have hbo : b = ob := by injection hl
        subst hbo
        rw [show setHandle ((h, b) :: t) h v = (h, v) :: setHandle t h v by
          simp [setHandle]]
        rw [setHandle_id t h v hnd.1]
        simp only [List.countP_cons]
        by_cases hv : v = some o <;> by_cases hb : b = some o <;>
          simp [hv, hb] <;> omega
      · rw [show List.lookup h ((k, b) :: t) = List.lookup h t by
          simp [List.lookup, show (h == k) = false by simp [hk]]] at hl
        rw [show setHandle ((k, b) :: t) h v = (k, b) :: setHandle t h v by
          simp [setHandle, show ¬ (k = h) from fun hc => hk hc.symm]]
        simp only [List.countP_cons]
        have := ih hnd.2 hl
        omega

theorem filter_ne_id (hs : List (Nat × Option Nat)) (h : Nat)
    (hn : h ∉ hs.map Prod.fst) : hs.filter (fun e => ! (e.1 == h)) = hs := by
  apply List.filter_eq_self.mpr
  intro e he
  have hne : ¬ e.1 = h := fun hc => hn (hc ▸ List.mem_map_of_mem Prod.fst he)
  simp [hne]

theorem countP_filter_ne (hs : List (Nat × Option Nat)) (h : Nat) (ob : Option Nat)
    (o : Nat) (hnd : (hs.map Prod.fst).Nodup) (hl : hs.lookup h = some ob) :
    (hs.filter (fun e => ! (e.1 == h))).countP (fun e => e.2 == some o)
      + (if ob = some o then 1 else 0)
      = hs.countP (fun e => e.2 == some o) := by
  induction hs with
  | nil => simp [List.lookup] at hl
  | cons e t ih =>
      obtain ⟨k, b⟩ := e
      simp only [List.map_cons, List.nodup_cons] at hnd
      by_cases hk : h = k
      · subst hk
        rw [show List.lookup h ((h, b) :: t) = some b by simp [List.lookup]] at hl
        have hbo : b = ob := by injection hl
        subst hbo
        rw [show ((h, b) :: t).filter (fun e => ! (e.1 == h))
            = t.filter (fun e => ! (e.1 == h)) by simp [List.filter_cons]]
        rw [filter_ne_id t h hnd.1]
        simp only [List.countP_cons]
        by_cases hb : b = some o <;> simp [hb] <;> omega
      · rw [show List.lookup h ((k, b) :: t) = List.lookup h t by
          simp [List.lookup, show (h == k) = false by simp [hk]]] at hl
        rw [show ((k, b) :: t).filter (fun e => ! (e.1 == h))
            = (k, b) :: t.filter (fun e => ! (e.1 == h)) by
          simp [List.filter_cons, show ¬ (k = h) from fun hc => hk hc.symm]]
        simp only [List.countP_cons]
        have := ih hnd.2 hl
        omega

theorem refCount_pos_of_mem (s : ShState) (e : Nat × Option Nat) (o : Nat)
    (he : e ∈ s.handles) (ho : e.2 = some o) : 0 < refCount s o := by
  rw [refCount, List.countP_pos_iff]
  exact ⟨e, he, by simp [ho]⟩

theorem add_subscribe_good (s : ShState) (h : Nat) (ob : Option Nat)
    (hg : good s) (hl : s.handles.lookup h = none)
    (ha : ∀ o, ob = some o → s.allocated o = true) :
    good (subscribe { s with handles := (h, ob) :: s.handles } h) := by
  obtain ⟨hnd, hcnt, hmem, hdead⟩ := hg
  have hkey : h ∉ s.handles.map Prod.fst := (lookup_eq_none_iff _ _).mp hl
  have hlook : (List.lookup h ((h, ob) :: s.handles)).getD none = ob := by
    simp [List.lookup]
  cases ob with
  | none =>
      rw [subscribe_of_lookup_none _ _ hlook]
      refine ⟨?_, ?_, ?_, hdead⟩
      · simp only [List.map_cons, List.nodup_cons]
        exact ⟨hkey, hnd⟩
      · intro o ho
        have hrc : refCount { s with handles := (h, none) :: s.handles } o
            = refCount s o := by
          simp [refCount, List.countP_cons]
        rw [hrc]
        exact hcnt o ho
      · intro e he o heo
        rcases List.mem_cons.mp he with rfl | he'
        · simp at heo
        · exact hmem e he' o heo
  | some o =>
      rw [subscribe_of_lookup_some _ _ o hlook]
      refine ⟨?_, ?_, ?_, hdead⟩
      · simp only [List.map_cons, List.nodup_cons]
        exact ⟨hkey, hnd⟩
      · intro o' ho'
        by_cases heq : o' = o
        · subst heq
          have h1 : s.cnt o' = refCount s o' := hcnt o' ho'
          simp only [refCount, List.countP_cons, if_pos rfl]
          simp only [refCount] at h1
          simp [h1]
        · have h1 : s.cnt o' = refCount s o' := hcnt o' ho'
          simp only [refCount, List.countP_cons] at h1 ⊢
          simp only [if_neg heq]
          have : (((h, some o).2 == some o') : Bool) = false := by
            simp
            exact fun hc => heq hc.symm
          rw [this]
          simpa using h1
      · intro e he o' heo
        rcases List.mem_cons.mp he with rfl | he'
        · have : o = o' := by simpa using heo
          exact this ▸ ha o rfl
        · exact hmem e he' o' heo

theorem repoint_subscribe_good (s : ShState) (h : Nat) (ob : Option Nat)
    (hg : good s) (hl : s.handles.lookup h = some none)
    (ha : ∀ o, ob = some o → s.allocated o = true) :
    good (subscribe { s with handles := setHandle s.handles h ob } h) := by
  obtain ⟨hnd, hcnt, hmem, hdead⟩ := hg
  have hsome : (s.handles.lookup h).isSome = true := by rw [hl]; rfl
  have hset : (setHandle s.handles h ob).lookup h = some ob :=
    lookup_setHandle_self _ _ _ hsome
  have hlook : ((setHandle s.handles h ob).lookup h).getD none = ob := by
    rw [hset]
    rfl
  have hcountAll : ∀ q, (setHandle s.handles h ob).countP (fun e => e.2 == some q)
      = s.handles.countP (fun e => e.2 == some q) + (if ob = some q then 1 else 0) := by
    intro q
    have := countP_setHandle s.handles h none ob q hnd hl
    simpa using this
  cases ob with
  | none =>
      rw [subscribe_of_lookup_none _ _ hlook]
      refine ⟨?_, ?_, ?_, hdead⟩
      · show ((setHandle s.handles h none).map Prod.fst).Nodup
        rw [keys_setHandle]
        exact hnd
      · intro o ho
        show s.cnt o = refCount { s with handles := setHandle s.handles h none } o
        have h0 := hcountAll o
        simp only [refCount] at *
        rw [h0]
        simpa using hcnt o ho
      · intro e he o heo
        rcases mem_setHandle _ _ _ _ he with rfl | ⟨he', _⟩
        · simp at heo
        · exact hmem e he' o heo
  | some o =>
      rw [subscribe_of_lookup_some _ _ o hlook]
      refine ⟨?_, ?_, ?_, hdead⟩
      · show ((setHandle s.handles h (some o)).map Prod.fst).Nodup
        rw [keys_setHandle]
        exact hnd
      · intro o' ho'
        have h0 := hcountAll o'
        by_cases heq : o' = o
        · subst heq
          show (if o' = o' then s.cnt o' + 1 else s.cnt o')
              = refCount { s with handles := setHandle s.handles h (some o') } o'
          rw [if_pos rfl]
          have h1 := hcnt o' ho'
          simp only [refCount] at *
          rw [h0]
          simp [h1]
        · show (if o' = o then s.cnt o + 1 else s.cnt o')
              = refCount { s with handles := setHandle s.handles h (some o) } o'
          rw [if_neg heq]
          have h1 := hcnt o' ho'
          simp only [refCount] at *
          have hno : ¬ some o = some o' := fun hc => heq (by injection hc with hc2; exact hc2.symm)
          rw [h0, h1, if_neg hno]
          omega
      · intro e he o' heo
        rcases mem_setHandle _ _ _ _ he with rfl | ⟨he', _⟩
        · have : o = o' := by simpa using heo
          exact this ▸ ha o rfl
        · exact hmem e he' o' heo

theorem cancel_good (s : ShState) (h : Nat) (hg : good s) : good (cancel s h) := by
  obtain ⟨hnd, hcnt, hmem, hdead⟩ := hg
  rcases hE : s.handles.lookup h with _ | ob
  · have hid : setHandle s.handles h none = s.handles :=
      setHandle_id _ _ _ ((lookup_eq_none_iff _ _).mp hE)
    rw [cancel_eq_of_none s h (by rw [hE]; rfl), hid]
    exact ⟨hnd, hcnt, hmem, hdead⟩
  · cases ob with
    | none =>
        rw [cancel_eq_of_none s h (by rw [hE]; rfl)]
        refine ⟨?_, ?_, ?_, hdead⟩
        · show ((setHandle s.handles h none).map Prod.fst).Nodup
          rw [keys_setHandle]
          exact hnd
        · intro o ho
          have h0 := countP_setHandle s.handles h none none o hnd hE
          show s.cnt o = refCount { s with handles := setHandle s.handles h none } o
          have h1 := hcnt o ho
          simp only [refCount] at *
          omega
        · intro e he o heo
          rcases mem_setHandle _ _ _ _ he with rfl | ⟨he', _⟩
          · simp at heo
          · exact hmem e he' o heo
    | some o =>
        have hE' : (s.handles.lookup h).getD none = some o := by
          rw [hE]
          rfl
        have hmem0 : (h, some o) ∈ s.handles := lookup_mem _ _ _ hE
        have hallo : s.allocated o = true := hmem _ hmem0 o rfl
        have hcnto : s.cnt o = refCount s o := hcnt o hallo
        have hpos : 0 < refCount s o := refCount_pos_of_mem s (h, some o) o hmem0 rfl
        by_cases hz : s.cnt o - 1 = 0
        · rw [cancel_eq_of_last s h o hE' hz]
          have hone : refCount s o = 1 := by omega
          refine ⟨?_, ?_, ?_, ?_⟩
          · show ((setHandle s.handles h none).map Prod.fst).Nodup
            rw [keys_setHandle]
            exact hnd
          · intro o' ho'
            have hne : o' ≠ o := by
              intro hc
              subst hc
              simp at ho'
            simp only [if_neg hne] at ho'
            show (if o' = o then 0 else s.cnt o')
                = refCount { s with
                    cnt := fun q => if q = o then 0 else s.cnt q,
                    allocated := fun q => if q = o then false else s.allocated q,
                    dead := fun q => if q = o then true else s.dead q,
                    handles := setHandle s.handles h none } o'
            rw [if_neg hne]
            have h0 := countP_setHandle s.handles h (some o) none o' hnd hE
            have hno : ¬ some o = some o' := fun hc =>
              hne (by injection hc with h2; exact h2.symm)
            rw [if_neg hno] at h0
            have h1 := hcnt o' ho'
            simp only [refCount] at *
            simp only [show ((none : Option Nat) = some o') = False by simp,
              if_false] at h0
            omega
          · intro e he o'' heo
            rcases mem_setHandle _ _ _ _ he with rfl | ⟨he', hkey⟩
            · simp at heo
            · have hall := hmem e he' o'' heo
              have hno2 : o'' ≠ o := by
                intro hc
                subst hc
                have h2 : 2 ≤ s.handles.countP (fun x => x.2 == some o'') :=
                  two_le_countP s.handles _ (h, some o'') e hmem0 he'
                    (fun hc2 => hkey (by rw [← hc2])) (by simp) (by simp [heo])
                simp only [refCount] at hone
                omega
              show (if o'' = o then false else s.allocated o'') = true
              rw [if_neg hno2]
              exact hall
          · intro o' ho'
            have hne : o' ≠ o := by
              intro hc
              subst hc
              simp at ho'
            simp only [if_neg hne] at ho'
            show (if o' = o then true else s.dead o') = false
            rw [if_neg hne]
            exact hdead o' ho'
        · rw [cancel_eq_of_more s h o hE' hz]
          refine ⟨?_, ?_, ?_, hdead⟩
          · show ((setHandle s.handles h none).map Prod.fst).Nodup
            rw [keys_setHandle]
            exact hnd
          · intro o' ho'
            have h0 := countP_setHandle s.handles h (some o) none o' hnd hE
            simp only [show ((none : Option Nat) = some o') = False by simp,
              if_false] at h0
            by_cases hne : o' = o
            · subst hne
              show (if o' = o' then s.cnt o' - 1 else s.cnt o')
                  = refCount { s with
                      cnt := fun q => if q = o' then s.cnt o' - 1 else s.cnt q,
                      handles := setHandle s.handles h none } o'
              rw [if_pos rfl]
              rw [if_pos rfl] at h0
              have h1 := hcnt o' ho'
              simp only [refCount] at *
              omega
            · show (if o' = o then s.cnt o - 1 else s.cnt o')
                  = refCount { s with
                      cnt := fun q => if q = o then s.cnt o - 1 else s.cnt q,
                      handles := setHandle s.handles h none } o'
              rw [if_neg hne]
              have hno : ¬ some o = some o' := fun hc =>
                hne (by injection hc with h2; exact h2.symm)
              rw [if_neg hno] at h0
              have h1 := hcnt o' ho'
              simp only [refCount] at *
              omega
          · intro e he o'' heo
            rcases mem_setHandle _ _ _ _ he with rfl | ⟨he', _⟩
            · simp at heo
            · exact hmem e he' o'' heo

theorem step_good (s : ShState) (op : ShOp) (hg : good s) : good (step s op) := by
  cases op with
  | newObject o =>
      simp only [step]
      by_cases hc : (s.allocated o || s.dead o) = true
      · rw [if_pos hc]
        exact hg
      · rw [if_neg hc]
        simp only [Bool.or_eq_true, not_or, Bool.not_eq_true] at hc
        refine ⟨hg.1, ?_, ?_, ?_⟩
        · intro o' ho'
          by_cases hne : o' = o
          · subst hne
            show (if o' = o' then 0 else s.cnt o')
                = refCount { s with
                    allocated := fun q => if q = o' then true else s.allocated q,
                    cnt := fun q => if q = o' then 0 else s.cnt q } o'
            rw [if_pos rfl]
            have h0 : s.handles.countP (fun e => e.2 == some o') = 0 := by
              rw [List.countP_eq_zero]
              intro e he
              simp only [beq_iff_eq]
              intro hc2
              have := hg.2.2.1 e he o' hc2
              rw [this] at hc
              exact absurd hc.1 (by simp)
            simp only [refCount]
            exact h0.symm
          · simp only [if_neg hne] at ho'
            show (if o' = o then 0 else s.cnt o') = _
            rw [if_neg hne]
            exact hg.2.1 o' ho'
        · intro e he o' heo
          have := hg.2.2.1 e he o' heo
          show (if o' = o then true else s.allocated o') = true
          by_cases hne : o' = o
          · rw [if_pos hne]
          · rw [if_neg hne]
            exact this
        · intro o' ho'
          by_cases hne : o' = o
          · subst hne
            exact hc.2
          · simp only [if_neg hne] at ho'
            exact hg.2.2.2 o' ho'
  | construct h ob =>
      simp only [step]
      by_cases hc : (s.handles.lookup h).isSome = true
      · rw [if_pos hc]
        exact hg
      · rw [if_neg hc]
        have hl : s.handles.lookup h = none := by
          rcases hE : s.handles.lookup h with _ | v
          · rfl
          · rw [hE] at hc
            simp at hc
        cases ob with
        | none =>
            have hx := add_subscribe_good s h none hg hl
              (fun o ho => Option.noConfusion ho)
            rwa [subscribe_of_lookup_none _ _ (by simp [List.lookup])] at hx
        | some o =>
            dsimp only
            by_cases hao : s.allocated o = true
            · rw [if_pos hao]
              exact add_subscribe_good s h (some o) hg hl
                (fun o' ho' => by injection ho' with h2; exact h2 ▸ hao)
            · rw [if_neg hao]
              exact hg
  | copyConstruct h g =>
      simp only [step]
      by_cases hc : (s.handles.lookup h).isSome = true
      · rw [if_pos hc]
        exact hg
      · rw [if_neg hc]
        have hl : s.handles.lookup h = none := by
          rcases hE : s.handles.lookup h with _ | v
          · rfl
          · rw [hE] at hc
            simp at hc
        rcases hE : s.handles.lookup g with _ | ob
        · exact hg
        · dsimp only
          have hb : (g, ob) ∈ s.handles := lookup_mem _ _ _ hE
          exact add_subscribe_good s h ob hg hl
            (fun o' ho' => hg.2.2.1 (g, ob) hb o' ho')
  | assign h g =>
      simp only [step]
      by_cases hc : h = g
      · rw [if_pos hc]
        exact hg
      · rw [if_neg hc]
        by_cases hc2 : ((s.handles.lookup h).isSome && (s.handles.lookup g).isSome) = true
        · rw [if_pos hc2]
          simp only [Bool.and_eq_true] at hc2
          have hg1 : good (cancel s h) := cancel_good s h hg
          have hch : (cancel s h).handles = setHandle s.handles h none :=
            cancel_handles s h
          have hl1 : (cancel s h).handles.lookup h = some none := by
            rw [hch]
            exact lookup_setHandle_self _ _ _ hc2.1
          have ha : ∀ o', ((cancel s h).handles.lookup g).getD none = some o' →
              (cancel s h).allocated o' = true := by
            intro o' ho'
            have hsome : (cancel s h).handles.lookup g = some (some o') := by
              rcases hE : (cancel s h).handles.lookup g with _ | v
              · rw [hE] at ho'
                simp at ho'
              · rw [hE] at ho'
                simp at ho'
                rw [ho']
            exact hg1.2.2.1 _ (lookup_mem _ _ _ hsome) o' rfl
          exact repoint_subscribe_good (cancel s h) h
            (((cancel s h).handles.lookup g).getD none) hg1 hl1 ha
        · rw [if_neg hc2]
          exact hg
  | updateShare h g =>
      simp only [step]
      by_cases hc : (s.handles.lookup h).isSome = true
      · rw [if_pos hc]
        exact hg
      · rw [if_neg hc]
        have hl : s.handles.lookup h = none := by
          rcases hE : s.handles.lookup h with _ | v
          · rfl
          · rw [hE] at hc
            simp at hc
        rcases hE : s.handles.lookup g with _ | ob
        · exact hg
        · cases ob with
          | none =>
              dsimp only
              have hx := add_subscribe_good s h none hg hl
                (fun o ho => Option.noConfusion ho)
              rwa [subscribe_of_lookup_none _ _ (by simp [List.lookup])] at hx
          | some o =>
              dsimp only
              have hb : (g, some o) ∈ s.handles := lookup_mem _ _ _ hE
              exact add_subscribe_good s h (some o) hg hl
                (fun o' ho' => by
                  injection ho' with h2
                  exact h2 ▸ hg.2.2.1 _ hb o rfl)
  | destroy h =>
      simp only [step]
      by_cases hc : (s.handles.lookup h).isSome = true
      · rw [if_pos hc]
        have hg1 : good (cancel s h) := cancel_good s h hg
        have hch : (cancel s h).handles = setHandle s.handles h none :=
          cancel_handles s h
        have hl1 : (cancel s h).handles.lookup h = some none := by
          rw [hch]
          exact lookup_setHandle_self _ _ _ hc
        refine ⟨?_, ?_, ?_, hg1.2.2.2⟩
        · show (((cancel s h).handles.filter (fun e => ! (e.1 == h))).map Prod.fst).Nodup
          exact List.Nodup.sublist ((List.filter_sublist _).map Prod.fst) hg1.1
        · intro o ho
          have h0 := countP_filter_ne (cancel s h).handles h none o hg1.1 hl1
          simp only [show ((none : Option Nat) = some o) = False by simp,
            if_false] at h0
          show (cancel s h).cnt o = refCount { cancel s h with
              handles := (cancel s h).handles.filter (fun e => ! (e.1 == h)) } o
          have h1 := hg1.2.1 o ho
          simp only [refCount] at *
          omega
        · intro e he o heo
          exact hg1.2.2.1 e (List.mem_of_mem_filter he) o heo
      · rw [if_neg hc]
        exact hg

theorem runOps_good (ops : List ShOp) (s : ShState) (hg : good s) :
    good (runOps ops s) := by
  induction ops generalizing s with
  | nil => exact hg
  | cons op t ih => exact ih (step s op) (step_good s op hg)

end SH

theorem adviseIter_eq (advFn : Nat → AdvResult) (propOf : Nat → Nat) (me : Int) :
    ∀ (L P rest : List Nat),
      adviseIter advFn propOf me (P ++ (L ++ rest)) P.length (P.length + L.length)
        = adviseList advFn propOf me L := by
  intro L
  induction L with
  | nil =>
      intro P rest
      rw [adviseIter]
      rw [dif_neg (by simp)]
      rfl
  | cons a t ih =>
      intro P rest
      rw [adviseIter]
      rw [dif_pos (by simp)]
      have hget : (P ++ ((a :: t) ++ rest)).getD P.length 0 = a := by
        rw [getD_at_length]
        rfl
      rw [hget]
      have hrec : adviseIter advFn propOf me (P ++ ((a :: t) ++ rest))
          (P.length + 1) (P.length + (a :: t).length)
          = adviseList advFn propOf me t := by
        rw [show P ++ ((a :: t) ++ rest) = (P ++ [a]) ++ (t ++ rest) by simp]
        rw [show P.length + 1 = (P ++ [a]).length by simp]
        rw [show P.length + (a :: t).length = (P ++ [a]).length + t.length by
          simp
          omega]
        exact ih (P ++ [a]) rest
      rcases hstat : (advFn a).stat with _ | _ | _ <;>
        simp only [adviseList, hstat, hrec]

theorem adviseList_visited (advFn : Nat → AdvResult) (propOf : Nat → Nat)
    (me : Int) : ∀ L, (adviseList advFn propOf me L).visited = upToFail advFn L := by
  intro L
  induction L with
  | nil => rfl
  | cons a t ih =>
      rcases hstat : (advFn a).stat with _ | _ | _ <;>
        simp only [adviseList, upToFail, hstat, ih] <;> simp [hstat]

theorem adviseList_res (advFn : Nat → AdvResult) (propOf : Nat → Nat)
    (me : Int) : ∀ L, ((adviseList advFn propOf me L).res = false ↔
      ∃ a ∈ upToFail advFn L, (advFn a).stat = AdvStat.failed) := by
  intro L
  induction L with
  | nil => simp [adviseList, upToFail]
  | cons a t ih =>
      rcases hstat : (advFn a).stat with _ | _ | _
      · simp only [adviseList, upToFail, hstat]
        rw [if_neg (by simp)]
        simp only [List.mem_cons]
        constructor
        · intro hr
          obtain ⟨x, hx, hxf⟩ := ih.mp hr
          exact ⟨x, Or.inr hx, hxf⟩
        · intro ⟨x, hx, hxf⟩
          rcases hx with rfl | hx
          · rw [hstat] at hxf
            cases hxf
          · exact ih.mpr ⟨x, hx, hxf⟩
      · simp only [adviseList, upToFail, hstat]
        simp [hstat]
      · simp only [adviseList, upToFail, hstat]
        rw [if_neg (by simp)]
        simp only [List.mem_cons]
        constructor
        · intro hr
          obtain ⟨x, hx, hxf⟩ := ih.mp hr
          exact ⟨x, Or.inr hx, hxf⟩
        · intro ⟨x, hx, hxf⟩
          rcases hx with rfl | hx
          · rw [hstat] at hxf
            cases hxf
          · exact ih.mpr ⟨x, hx, hxf⟩

theorem adviseList_scheduled (advFn : Nat → AdvResult) (propOf : Nat → Nat)
    (me : Int) : ∀ L, (adviseList advFn propOf me L).scheduled
      = ((upToFail advFn L).filter
          (fun a => (advFn a).stat == AdvStat.nofix)).map (fun a => (propOf a, me)) := by
  intro L
  induction L with
  | nil => rfl
  | cons a t ih =>
      rcases hstat : (advFn a).stat with _ | _ | _
      · simp only [adviseList, upToFail, hstat]
        rw [if_neg (by simp)]
        rw [List.filter_cons]
        simp only [hstat]
        simp [ih]
      · simp only [adviseList, upToFail, hstat]
        simp [hstat]
      · simp only [adviseList, upToFail, hstat]
        rw [if_neg (by simp)]
        rw [List.filter_cons]
        simp only [hstat]
        simp [ih]

theorem upToFail_no_skip (advFn : Nat → AdvResult) :
    ∀ (L : List Nat) (i : Nat), i < L.length →
      (∀ j, j < i → (advFn (L.getD j 0)).stat ≠ AdvStat.failed) →
      L.getD i 0 ∈ upToFail advFn L := by
  intro L
  induction L with
  | nil => simp
  | cons a t ih =>
      intro i hi hj
      cases i with
      | zero =>
          simp only [List.getD_cons_zero, upToFail]
          by_cases hf : (advFn a).stat = AdvStat.failed
          · rw [if_pos hf]
            exact List.mem_singleton_self a
          · rw [if_neg hf]
            exact List.mem_cons_self a _
      | succ k =>
          have ha : (advFn a).stat ≠ AdvStat.failed := by
            have := hj 0 (by omega)
            simpa using this
          simp only [upToFail, if_neg ha, List.getD_cons_succ, List.mem_cons]
          refine Or.inr (ih k (by simpa using hi) ?_)
          intro j hjk
          have := hj (j + 1) (by omega)
          simpa using this

theorem advise_ofB (pcMax : Nat) (advFn : Nat → AdvResult) (propOf : Nat → Nat)
    (me : Int) (bs : List (List Nat)) (adv fr : List Nat) (fab ns : Nat)
    (hot : Bool) (hlen : bs.length = pcMax + 1) (hne : adv ≠ []) :
    advise pcMax advFn propOf me (ofB bs adv fr fab ns hot)
      = adviseList advFn propOf me adv := by
  unfold advise
  have hla : (ofB bs adv fr fab ns hot).idx.getD pcMax 0 = bs.flatten.length := by
    show (bounds bs 0).getD pcMax 0 = bs.flatten.length
    rw [bounds_getD 0 (by omega)]
    rw [show bs.take (pcMax + 1) = bs from List.take_of_length_le (by omega)]
    omega
  have hle : (ofB bs adv fr fab ns hot).entries
      = bs.flatten.length + adv.length := rfl
  rw [hla, hle]
  rw [if_neg (by
    intro hc
    have : adv.length = 0 := by omega
    exact hne (List.length_eq_zero.mp this))]
  show adviseIter advFn propOf me (bs.flatten ++ adv ++ fr)
      bs.flatten.length (bs.flatten.length + adv.length)
      = adviseList advFn propOf me adv
  rw [List.append_assoc]
  exact adviseIter_eq advFn propOf me adv bs.flatten fr

/- ===================== Claim theorems ===================== -/

/-- C2: the shrink path of Space::rrealloc is broken.  Called with
n = 8 and m = 4 it keeps the block, but the size_t expression m - n
wraps, so it frees 2^64 - 4 bytes starting at b + m instead of the
trailing n - m = 4 bytes; the grow path allocates, copies the old
contents and frees the old block as claimed. -/
theorem C2_rrealloc_shrink_wraps :
    (rrealloc 4096 1024 8 4).1 = 1024 ∧
    (rrealloc 4096 1024 8 4).2 = [MMCall.rfree (1024 + 4) (sizeW - 4)] ∧
    sizeW - 4 ≠ 8 - 4 ∧
    rrealloc 4096 1024 4 8
      = (4096, [MMCall.ralloc 8, MMCall.memcpy 4096 1024 4,
                MMCall.rfree 1024 4]) := by
  refine ⟨rfl, ?_, by decide, rfl⟩
  show [MMCall.rfree (1024 + 4) (wsub 4 8)] = [MMCall.rfree (1024 + 4) (sizeW - 4)]
  norm_num [wsub, sizeW]

/-- C3 (amended): Space::description signals SpaceNotStable exactly when
the space is not stable; when the space is stable it delegates to
b_status, whether or not the space is failed. -/
theorem C3_description_signals_iff_not_stable (bdesc : SpaceCtl → Nat)
    (s : SpaceCtl) :
    (stable s = false → description bdesc s = Except.error SpaceErr.SpaceNotStable) ∧
    (stable s = true → description bdesc s = Except.ok (bdesc s)) := by
  constructor <;> intro h <;> simp [description, h]

/-- C3 counterexample: a failed space in propagation mode (active NULL,
queue at a real address) is stable, and description delegates to the
status branching instead of signalling SpaceNotStable. -/
theorem C3_description_on_failed_space :
    failed { queueAddr := 64, active := 0 } = true ∧
    stable { queueAddr := 64, active := 0 } = true ∧
    description (fun _ => 7) { queueAddr := 64, active := 0 } = Except.ok 7 := by
  refine ⟨rfl, by decide, rfl⟩

/-- C10: with the queue at a real (nonzero) address, failed() implies
stable(), because active = NULL satisfies the pointer comparison
active < queue; immediately after fail() both failed() and stable()
hold. -/
theorem C10_failed_implies_stable (s : SpaceCtl) (hq : 0 < s.queueAddr) :
    (failed s = true → stable s = true) ∧
    failed (fail s) = true ∧ stable (fail s) = true := by
  refine ⟨?_, rfl, ?_⟩
  · intro h
    simp only [failed, beq_iff_eq] at h
    simp [stable, h, hq]
  · simp [fail, stable, hq]

/-- C10 witness: the implication at a concrete propagation mode space. -/
theorem C10_failed_implies_stable_witness :
    failed (fail { queueAddr := 64, active := 128 }) = true ∧
    stable (fail { queueAddr := 64, active := 128 }) = true :=
  (C10_failed_implies_stable { queueAddr := 64, active := 128 } (by decide)).2

/-- C4: Search::bab returns the sequential engine exactly when the
translated thread count is at most one (equivalently, exactly one, as
the translation is positive) or thread support is unavailable, and the
parallel engine exactly when thread support is available and the
translated thread count exceeds one. -/
theorem C4_bab_dispatch (hasThreads : Bool) (npu : Nat) (o : SearchOptions) :
    (bab hasThreads npu o = EngineKind.sequential ↔
      ((threadsTranslate npu o).threads ≤ 1 ∨ hasThreads = false)) ∧
    (bab hasThreads npu o = EngineKind.parallel ↔
      (1 < (threadsTranslate npu o).threads ∧ hasThreads = true)) := by
  have hpos := threadsTranslate_pos npu o
  cases hasThreads with
  | false => simp [bab]
  | true =>
      by_cases ht : (threadsTranslate npu o).threads = 1
      · simp [bab, ht]
      · constructor
        · simp [bab, ht]
          omega
        · simp [bab, ht]
          omega

/-- C8 (amended): VarImp::resize gives the array 4 slots on first
allocation, adding 4 to the free slot count; on a later resize called
with the capacity exhausted (n = degree() entries filling the array),
the new capacity is n + 4 inside the hot area and (n + 1) * 3 / 2
slots (integer division, the floor rather than the ceiling of
1.5 (n + 1)) otherwise, the n entries are kept in order, and the free
slot count grows by the capacity gained. -/
theorem C8_resize_growth (freeBits : Nat) (s : SubArr)
    (hfull : s.base.length = s.entries) :
    (s.base = [] →
      (resize freeBits s).base.length = 4 ∧
      (resize freeBits s).freeAndBits >>> freeBits
        = s.freeAndBits >>> freeBits + 4) ∧
    (s.base ≠ [] →
      (resize freeBits s).base.length
        = (if s.hot then s.entries + 4 else ((s.entries + 1) * 3) >>> 1) ∧
      (resize freeBits s).base.take s.entries = s.base ∧
      (resize freeBits s).freeAndBits >>> freeBits
        = s.freeAndBits >>> freeBits
          + ((resize freeBits s).base.length - s.base.length)) := by
  constructor
  · intro hnil
    rw [resize, if_pos hnil]
    refine ⟨by simp, ?_⟩
    exact shiftR_add
  · intro hne
    rw [resize, if_neg hne]
    dsimp only
    have hm : s.entries ≤ (if s.hot then s.entries + 4
        else ((s.entries + 1) * 3) >>> 1) := by
      by_cases hh : s.hot <;> simp [hh]
      have := growth_ge s.entries
      omega
    have htk : s.base.take s.entries = s.base :=
      List.take_of_length_le (by omega)
    have hlen2 : (s.base.take s.entries
        ++ List.replicate ((if s.hot then s.entries + 4
            else ((s.entries + 1) * 3) >>> 1) - s.entries) 0).length
        = (if s.hot then s.entries + 4 else ((s.entries + 1) * 3) >>> 1) := by
      rw [htk]
      simp only [List.length_append, List.length_replicate, hfull]
      omega
    refine ⟨hlen2, ?_, ?_⟩
    · rw [htk, ← hfull, List.take_left]
    · rw [shiftR_add, hlen2, hfull]

/-- A full four slot subscription array outside the hot area, used as
the concrete input of the resize statements. -/
def fullFour : SubArr :=
  { base := [1, 2, 3, 4], entries := 4, idx := [4], freeAndBits := 0,
    nSub := 4, hot := false }

/-- C8 witness: resizing a full four slot array outside the hot area
yields 7 slots and keeps the entries. -/
theorem C8_resize_growth_witness :
    (resize 0 fullFour).base.length = 7 ∧
    (resize 0 fullFour).base.take 4 = [1, 2, 3, 4] := by
  have h := (C8_resize_growth 0 fullFour rfl).2 (by decide)
  exact ⟨h.1, h.2.1⟩

/-- C8 counterexample: at n = 4 used entries outside the hot area the
code grows the array to (4 + 1) * 3 / 2 = 7 slots, while the ceiling of
1.5 (n + 1) claimed by the specification is 8. -/
theorem C8_resize_growth_not_ceiling :
    (resize 0 fullFour).base.length = 7 ∧
    (3 * (4 + 1) + 1) / 2 = 8 ∧ (7 : Nat) ≠ 8 := by
  refine ⟨?_, by decide, by decide⟩
  rfl

/-- C1: VarImp::subscribe for a propagator, read on a wellformed array:
with assigned true the subscription state is untouched and the
propagator is scheduled with event ME_GEN_ASSIGNED exactly when
schedule holds; with assigned false the propagator is entered into the
bucket for condition pc and scheduled with event me exactly when
schedule holds and pc differs from PC_GEN_ASSIGNED. -/
theorem C1_subscribe_propagator (pcMax freeBits : Nat) (bs : List (List Nat))
    (adv fr : List Nat) (fab ns : Nat) (hot : Bool) (p pc : Nat)
    (assigned sched : Bool) (me : Int)
    (hlen : bs.length = pcMax + 1) (hpc : pc ≤ pcMax)
    (hfree : fab >>> freeBits = fr.length) :
    (assigned = true →
      (subscribe pcMax freeBits (ofB bs adv fr fab ns hot) p pc assigned me sched).1
        = ofB bs adv fr fab ns hot ∧
      ((subscribe pcMax freeBits (ofB bs adv fr fab ns hot) p pc assigned me sched).2
          = some ME_GEN_ASSIGNED ↔ sched = true)) ∧
    (assigned = false →
      p ∈ bucketSlice
          (subscribe pcMax freeBits (ofB bs adv fr fab ns hot) p pc assigned me sched).1
          pc ∧
      ((subscribe pcMax freeBits (ofB bs adv fr fab ns hot) p pc assigned me sched).2
          = some me ↔ (sched = true ∧ pc ≠ PC_GEN_ASSIGNED))) := by
  constructor
  · intro ha
    subst ha
    refine ⟨rfl, ?_⟩
    show (if sched then some ME_GEN_ASSIGNED else none) = some ME_GEN_ASSIGNED
        ↔ sched = true
    cases sched <;> simp
  · intro ha
    subst ha
    constructor
    · show p ∈ bucketSlice (enter pcMax freeBits (ofB bs adv fr fab ns hot) p pc) pc
      obtain ⟨fr2, fab2, heq, _⟩ :=
        enter_ofB pcMax freeBits bs adv fr fab ns hot p pc hlen hpc hfree
      rw [heq]
      have hlen2 : (bs.take pc ++ (p :: rot1 (bs.getD pc []))
          :: (bs.drop (pc + 1)).map rot1).length = pcMax + 1 := by
        simp only [List.length_append, List.length_cons, List.length_map,
          List.length_drop, length_take_of_le (show pc ≤ bs.length by omega)]
        omega
      rw [bucketSlice_ofB pcMax _ (rot1 adv) fr2 fab2 (ns + 1) hot pc hlen2 hpc]
      rw [getD_bucket_update bs pc _ rot1 pc (by omega) (by omega)]
      rw [if_neg (by omega), if_pos rfl]
      exact List.mem_cons_self p _
    · show (if sched ∧ pc ≠ PC_GEN_ASSIGNED then some me else none) = some me
          ↔ (sched = true ∧ pc ≠ PC_GEN_ASSIGNED)
      by_cases hcond : sched = true ∧ pc ≠ PC_GEN_ASSIGNED
      · rw [if_pos (by exact hcond)]
        simp [hcond]
      · rw [if_neg (by exact hcond)]
        simp [hcond]

/-- C1 witness: subscribing propagator 7 with condition 1 on a concrete
array puts it into bucket 1. -/
theorem C1_subscribe_propagator_witness :
    7 ∈ bucketSlice
        (subscribe 1 0 (ofB [[], [5]] [9] [0] 1 2 false) 7 1 false 3 true).1 1 :=
  ((C1_subscribe_propagator 1 0 [[], [5]] [9] [0] 1 2 false 7 1 false true 3
    rfl (by decide) rfl).2 rfl).1

/-- C5: on a wellformed subscription state whose bucket slices and
advisor slice hold no duplicates, the partition boundaries are weakly
increasing, and each of the four mutating operations (entering a
propagator not yet subscribed for the condition, entering a fresh
advisor, removing a subscribed propagator, removing a subscribed
advisor) preserves wellformedness (the bucket layout in ascending
condition order with the advisors in the final slice), the weakly
increasing boundaries, and the absence of duplicates in every bucket
slice and in the advisor slice. -/
theorem C5_subscription_invariants (pcMax freeBits : Nat) (bs : List (List Nat))
    (adv fr : List Nat) (fab ns : Nat) (hot : Bool)
    (hlen : bs.length = pcMax + 1) (hfree : fab >>> freeBits = fr.length)
    (hnd : ∀ c, c ≤ pcMax → (bucketSlice (ofB bs adv fr fab ns hot) c).Nodup)
    (hnda : (advSlice pcMax (ofB bs adv fr fab ns hot)).Nodup) :
    idxMono pcMax (ofB bs adv fr fab ns hot) ∧
    (∀ p pc, pc ≤ pcMax → p ∉ bucketSlice (ofB bs adv fr fab ns hot) pc →
      WF pcMax freeBits (enter pcMax freeBits (ofB bs adv fr fab ns hot) p pc) ∧
      idxMono pcMax (enter pcMax freeBits (ofB bs adv fr fab ns hot) p pc) ∧
      (∀ c, c ≤ pcMax →
        (bucketSlice (enter pcMax freeBits (ofB bs adv fr fab ns hot) p pc) c).Nodup) ∧
      (advSlice pcMax (enter pcMax freeBits (ofB bs adv fr fab ns hot) p pc)).Nodup) ∧
    (∀ a, a ∉ advSlice pcMax (ofB bs adv fr fab ns hot) →
      WF pcMax freeBits (enterAdv pcMax freeBits (ofB bs adv fr fab ns hot) a) ∧
      idxMono pcMax (enterAdv pcMax freeBits (ofB bs adv fr fab ns hot) a) ∧
      (∀ c, c ≤ pcMax →
        (bucketSlice (enterAdv pcMax freeBits (ofB bs adv fr fab ns hot) a) c).Nodup) ∧
      (advSlice pcMax (enterAdv pcMax freeBits (ofB bs adv fr fab ns hot) a)).Nodup) ∧
    (∀ p pc, pc ≤ pcMax → p ∈ bucketSlice (ofB bs adv fr fab ns hot) pc →
      WF pcMax freeBits (remove pcMax freeBits (ofB bs adv fr fab ns hot) p pc) ∧
      idxMono pcMax (remove pcMax freeBits (ofB bs adv fr fab ns hot) p pc) ∧
      (∀ c, c ≤ pcMax →
        (bucketSlice (remove pcMax freeBits (ofB bs adv fr fab ns hot) p pc) c).Nodup) ∧
      (advSlice pcMax (remove pcMax freeBits (ofB bs adv fr fab ns hot) p pc)).Nodup) ∧
    (∀ a, a ∈ advSlice pcMax (ofB bs adv fr fab ns hot) →
      WF pcMax freeBits (removeAdv pcMax freeBits (ofB bs adv fr fab ns hot) a) ∧
      idxMono pcMax (removeAdv pcMax freeBits (ofB bs adv fr fab ns hot) a) ∧
      (∀ c, c ≤ pcMax →
        (bucketSlice (removeAdv pcMax freeBits (ofB bs adv fr fab ns hot) a) c).Nodup) ∧
      (advSlice pcMax (removeAdv pcMax freeBits (ofB bs adv fr fab ns hot) a)).Nodup) := by
  have hnd2 : ∀ c, c ≤ pcMax → (bs.getD c []).Nodup := by
    intro c hc
    have := hnd c hc
    rwa [bucketSlice_ofB pcMax bs adv fr fab ns hot c hlen hc] at this
  have hnda2 : adv.Nodup := by
    have := hnda
    rwa [advSlice_ofB pcMax bs adv fr fab ns hot hlen] at this
  refine ⟨idxMono_ofB pcMax bs adv fr fab ns hot hlen, ?_, ?_, ?_, ?_⟩
  · intro p pc hpc hp
    rw [bucketSlice_ofB pcMax bs adv fr fab ns hot pc hlen hpc] at hp
    obtain ⟨fr2, fab2, heq, hfree2⟩ :=
      enter_ofB pcMax freeBits bs adv fr fab ns hot p pc hlen hpc hfree
    have hlen2 : (bs.take pc ++ (p :: rot1 (bs.getD pc []))
        :: (bs.drop (pc + 1)).map rot1).length = pcMax + 1 := by
      simp only [List.length_append, List.length_cons, List.length_map,
        List.length_drop, length_take_of_le (show pc ≤ bs.length by omega)]
      omega
    refine ⟨⟨_, _, _, _, _, _, heq, hlen2, hfree2⟩, ?_, ?_, ?_⟩
    · rw [heq]
      exact idxMono_ofB pcMax _ _ _ _ _ _ hlen2
    · intro c hc
      rw [heq, bucketSlice_ofB pcMax _ _ _ _ _ _ c hlen2 hc]
      rw [getD_bucket_update bs pc _ rot1 c (by omega) (by omega)]
      by_cases h1 : c < pc
      · rw [if_pos h1]
        exact hnd2 c hc
      · rw [if_neg h1]
        by_cases h2 : c = pc
        · rw [if_pos h2]
          refine List.nodup_cons.mpr ⟨?_, nodup_of_rot1 (hnd2 pc hpc)⟩
          intro hc2
          exact hp (mem_rot1.mp hc2)
        · rw [if_neg h2]
          exact nodup_of_rot1 (hnd2 c hc)
    · rw [heq, advSlice_ofB pcMax _ _ _ _ _ _ hlen2]
      exact nodup_of_rot1 hnda2
  · intro a ha
    rw [advSlice_ofB pcMax bs adv fr fab ns hot hlen] at ha
    obtain ⟨fr2, fab2, heq, hfree2⟩ :=
      enterAdv_ofB pcMax freeBits bs adv fr fab ns hot a hlen hfree
    refine ⟨⟨_, _, _, _, _, _, heq, hlen, hfree2⟩, ?_, ?_, ?_⟩
    · rw [heq]
      exact idxMono_ofB pcMax _ _ _ _ _ _ hlen
    · intro c hc
      rw [heq, bucketSlice_ofB pcMax _ _ _ _ _ _ c hlen hc]
      exact hnd2 c hc
    · rw [heq, advSlice_ofB pcMax _ _ _ _ _ _ hlen]
      refine List.nodup_cons.mpr ⟨?_, nodup_of_rot1 hnda2⟩
      intro hc2
      exact ha (mem_rot1.mp hc2)
  · intro p pc hpc hp
    rw [bucketSlice_ofB pcMax bs adv fr fab ns hot pc hlen hpc] at hp
    obtain ⟨w, heq⟩ :=
      remove_ofB pcMax freeBits bs adv fr fab ns hot p pc hlen hpc hp
    have hklt : (bs.getD pc []).indexOf p < (bs.getD pc []).length :=
      List.indexOf_lt_length.mpr hp
    have hlen2 : (bs.take pc ++ (swapRemove (bs.getD pc [])
        ((bs.getD pc []).indexOf p)) :: (bs.drop (pc + 1)).map rotBack).length
        = pcMax + 1 := by
      simp only [List.length_append, List.length_cons, List.length_map,
        List.length_drop, length_take_of_le (show pc ≤ bs.length by omega)]
      omega
    have hfree2 : (fab + (1 <<< freeBits)) >>> freeBits = (w :: fr).length := by
      rw [shiftR_add]
      simp [hfree]
    refine ⟨⟨_, _, _, _, _, _, heq, hlen2, hfree2⟩, ?_, ?_, ?_⟩
    · rw [heq]
      exact idxMono_ofB pcMax _ _ _ _ _ _ hlen2
    · intro c hc
      rw [heq, bucketSlice_ofB pcMax _ _ _ _ _ _ c hlen2 hc]
      rw [getD_bucket_update bs pc _ rotBack c (by omega) (by omega)]
      by_cases h1 : c < pc
      · rw [if_pos h1]
        exact hnd2 c hc
      · rw [if_neg h1]
        by_cases h2 : c = pc
        · rw [if_pos h2]
          exact nodup_swapRemove _ hklt (hnd2 pc hpc)
        · rw [if_neg h2]
          exact nodup_of_rotBack (hnd2 c hc)
    · rw [heq, advSlice_ofB pcMax _ _ _ _ _ _ hlen2]
      exact nodup_of_rotBack hnda2
  · intro a ha
    rw [advSlice_ofB pcMax bs adv fr fab ns hot hlen] at ha
    have heq :=
      removeAdv_ofB pcMax freeBits bs adv fr fab ns hot a hlen ha
    have hklt : adv.indexOf a < adv.length := List.indexOf_lt_length.mpr ha
    have hfree2 : (fab + (1 <<< freeBits)) >>> freeBits
        = ((adv.getLastD 0) :: fr).length := by
      rw [shiftR_add]
      simp [hfree]
    refine ⟨⟨_, _, _, _, _, _, heq, hlen, hfree2⟩, ?_, ?_, ?_⟩
    · rw [heq]
      exact idxMono_ofB pcMax _ _ _ _ _ _ hlen
    · intro c hc
      rw [heq, bucketSlice_ofB pcMax _ _ _ _ _ _ c hlen hc]
      exact hnd2 c hc
    · rw [heq, advSlice_ofB pcMax _ _ _ _ _ _ hlen]
      exact nodup_swapRemove _ hklt hnda2

/-- C5 witness: the boundaries of a concrete wellformed two bucket
state are weakly increasing. -/
theorem C5_subscription_invariants_witness :
    idxMono 1 (ofB [[5], [8]] [9] [0] 1 3 false) :=
  (C5_subscription_invariants 1 0 [[5], [8]] [9] [0] 1 3 false rfl rfl
    (by
      intro c hc
      rcases (by omega : c = 0 ∨ c = 1) with rfl | rfl <;> decide)
    (by decide)).1

/-- C6: on a wellformed state with at least one subscribed advisor,
VarImp::advise visits the advisor slice in forward order up to and
including the first advisor whose propagator reports ES_FAILED; it
returns false exactly when a visited advisor fails, schedules exactly
the propagators of the visited advisors that report ES_NOFIX with the
event me and in visiting order, does nothing for ES_FIX, and every
advisor preceded only by non failing advisors is visited, regardless
of which advisors dispose themselves during their invocation. -/
theorem C6_advise_iteration (pcMax : Nat) (bs : List (List Nat)) (adv fr : List Nat)
    (fab ns : Nat) (hot : Bool) (advFn : Nat → AdvResult) (propOf : Nat → Nat)
    (me : Int) (hlen : bs.length = pcMax + 1) (hne : adv ≠ []) :
    (advise pcMax advFn propOf me (ofB bs adv fr fab ns hot)).visited
      = upToFail advFn (advSlice pcMax (ofB bs adv fr fab ns hot)) ∧
    ((advise pcMax advFn propOf me (ofB bs adv fr fab ns hot)).res = false ↔
      ∃ a ∈ (advise pcMax advFn propOf me (ofB bs adv fr fab ns hot)).visited,
        (advFn a).stat = AdvStat.failed) ∧
    (advise pcMax advFn propOf me (ofB bs adv fr fab ns hot)).scheduled
      = (((advise pcMax advFn propOf me (ofB bs adv fr fab ns hot)).visited).filter
          (fun a => (advFn a).stat == AdvStat.nofix)).map (fun a => (propOf a, me)) ∧
    (∀ i, i < adv.length →
      (∀ j, j < i → (advFn (adv.getD j 0)).stat ≠ AdvStat.failed) →
      adv.getD i 0 ∈ (advise pcMax advFn propOf me (ofB bs adv fr fab ns hot)).visited) := by
  have hadv := advise_ofB pcMax advFn propOf me bs adv fr fab ns hot hlen hne
  rw [hadv, advSlice_ofB pcMax bs adv fr fab ns hot hlen]
  refine ⟨adviseList_visited advFn propOf me adv, ?_, ?_, ?_⟩
  · rw [adviseList_visited advFn propOf me adv]
    exact adviseList_res advFn propOf me adv
  · rw [adviseList_visited advFn propOf me adv]
    exact adviseList_scheduled advFn propOf me adv
  · intro i hi hj
    rw [adviseList_visited advFn propOf me adv]
    exact upToFail_no_skip advFn adv i hi hj

/-- A concrete advisor behaviour for the advise witness: advisor 4
reports ES_NOFIX, advisor 5 reports ES_FIX and disposes itself,
advisor 6 reports ES_FIX. -/
def advFnSample : Nat → AdvResult := fun a =>
  { stat := if a = 4 then AdvStat.nofix else AdvStat.fix, disposes := a == 5 }

/-- C6 witness: advising three concrete advisors visits the whole
slice even though the middle advisor disposes itself. -/
theorem C6_advise_iteration_witness :
    (advise 0 advFnSample (fun a => a + 10) 2
        (ofB [[]] [4, 5, 6] [] 0 3 false)).visited
      = upToFail advFnSample (advSlice 0 (ofB [[]] [4, 5, 6] [] 0 3 false)) :=
  (C6_advise_iteration 0 [[]] [4, 5, 6] [] 0 3 false advFnSample
    (fun a => a + 10) 2 rfl (by decide)).1

/-- C7: for a variable implementation x forwarded during a clone (the
union holding pc_max + 1 index words, pointers one or two words wide,
and the clone allocated at an even address): right after the register
phase x.base is the tagged clone pointer, so copied() holds and
forward() recovers the clone address; and after the reset phase of
update, x's base pointer, entries count and all idx partition words
equal their pre-clone values. -/
theorem C7_clone_forward_reset (pcMax ptrWords freeBits : Nat) (x : VarImpC)
    (cloneAddr regHead newSub : Nat)
    (hw : ptrWords = 1 ∨ ptrWords = 2)
    (hux : x.uidx.length = uWords pcMax ptrWords)
    (hceven : cloneAddr % 2 = 0) :
    copied (registerClone pcMax ptrWords freeBits x cloneAddr regHead).2 = true ∧
    forward (registerClone pcMax ptrWords freeBits x cloneAddr regHead).2 = cloneAddr ∧
    (updateReset pcMax ptrWords
        (registerClone pcMax ptrWords freeBits x cloneAddr regHead).1
        (registerClone pcMax ptrWords freeBits x cloneAddr regHead).2 newSub).2.base
      = x.base ∧
    (updateReset pcMax ptrWords
        (registerClone pcMax ptrWords freeBits x cloneAddr regHead).1
        (registerClone pcMax ptrWords freeBits x cloneAddr regHead).2 newSub).2.entries
      = x.entries ∧
    (∀ j, j ≤ pcMax →
      (updateReset pcMax ptrWords
          (registerClone pcMax ptrWords freeBits x cloneAddr regHead).1
          (registerClone pcMax ptrWords freeBits x cloneAddr regHead).2 newSub).2.uidx.getD j 0
        = x.uidx.getD j 0) := by
  have hmax : pcMax + 1 ≤ x.uidx.length := by
    rw [hux, uWords]
    exact Nat.le_max_left _ _
  have hptr : ptrWords ≤ x.uidx.length := by
    rw [hux, uWords]
    exact Nat.le_max_right _ _
  have hlen1 : (x.uidx.take (pcMax + 1)).length = pcMax + 1 := by
    rw [List.length_take]
    omega
  have hc0 : (registerClone pcMax ptrWords freeBits x cloneAddr regHead).1.uidx.getD 0 0
      = x.uidx.getD 0 0 := by
    show (x.uidx.take (pcMax + 1)
        ++ List.replicate (uWords pcMax ptrWords - (pcMax + 1)) 0).getD 0 0
      = x.uidx.getD 0 0
    rw [getD_append_left 0 (by omega)]
    exact getD_take_lt x.uidx (pcMax + 1) 0 (by omega)
  have hc1 : (registerClone pcMax ptrWords freeBits x cloneAddr regHead).1.uidx.getD 1 0
      = x.uidx.getD 1 0 ∨ pcMax = 0 := by
    by_cases hp : pcMax = 0
    · exact Or.inr hp
    · refine Or.inl ?_
      show (x.uidx.take (pcMax + 1)
          ++ List.replicate (uWords pcMax ptrWords - (pcMax + 1)) 0).getD 1 0
        = x.uidx.getD 1 0
      rw [getD_append_left 0 (by omega)]
      exact getD_take_lt x.uidx (pcMax + 1) 1 (by omega)
  refine ⟨?_, ?_, rfl, rfl, ?_⟩
  · show marked (mark cloneAddr) = true
    simp only [marked, mark, beq_iff_eq]
    omega
  · show unmark (mark cloneAddr) = cloneAddr
    simp only [unmark, mark]
    omega
  · intro j hj
    have h1 : (updateReset pcMax ptrWords
        (registerClone pcMax ptrWords freeBits x cloneAddr regHead).1
        (registerClone pcMax ptrWords freeBits x cloneAddr regHead).2 newSub).2.uidx
        = if 0 < pcMax ∧ 1 < ptrWords
          then ((writeNext ptrWords x.uidx regHead).set 0
              ((registerClone pcMax ptrWords freeBits x cloneAddr regHead).1.uidx.getD 0 0)).set 1
              ((registerClone pcMax ptrWords freeBits x cloneAddr regHead).1.uidx.getD 1 0)
          else (writeNext ptrWords x.uidx regHead).set 0
              ((registerClone pcMax ptrWords freeBits x cloneAddr regHead).1.uidx.getD 0 0) := rfl
    rcases hw with hw1 | hw2
    · subst hw1
      rw [h1, if_neg (by omega), hc0]
      have h2 : writeNext 1 x.uidx regHead = x.uidx.set 0 regHead := by
        rw [writeNext, if_pos rfl]
      rw [h2]
      by_cases hj0 : j = 0
      · subst hj0
        rw [getD_set_self]
        rw [List.length_set]
        omega
      · rw [getD_set_ne _ _ _ _ (fun hc => hj0 hc.symm)]
        rw [getD_set_ne _ _ _ _ (fun hc => hj0 hc.symm)]
    · subst hw2
      have h2 : writeNext 2 x.uidx regHead
          = (x.uidx.set 0 (regHead % 2 ^ 32)).set 1 (regHead / 2 ^ 32) := by
        rw [writeNext, if_neg (by omega)]
      by_cases hp0 : pcMax = 0
      · subst hp0
        have hj0 : j = 0 := by omega
        subst hj0
        rw [h1, if_neg (by omega), hc0, h2]
        rw [getD_set_self]
        simp only [List.length_set]
        omega
      · rcases hc1 with hc1 | hc1
        · rw [h1, if_pos ⟨by omega, by omega⟩, hc0, hc1, h2]
          by_cases hj0 : j = 0
          · subst hj0
            rw [getD_set_ne _ _ _ _ (by omega)]
            rw [getD_set_self]
            simp only [List.length_set]
            omega
          · by_cases hj1 : j = 1
            · subst hj1
              rw [getD_set_self]
              simp only [List.length_set]
              omega
            · rw [getD_set_ne _ _ _ _ (by omega)]
              rw [getD_set_ne _ _ _ _ (by omega)]
              rw [getD_set_ne _ _ _ _ (by omega)]
              rw [getD_set_ne _ _ _ _ (by omega)]
        · exact absurd hc1 hp0

/-- C7 witness: forwarding and recovering a concrete variable
implementation with two index words and two pointer words. -/
theorem C7_clone_forward_reset_witness :
    copied (registerClone 1 2 2 ⟨100, 3, [5, 7], 9⟩ 200 33).2 = true ∧
    forward (registerClone 1 2 2 ⟨100, 3, [5, 7], 9⟩ 200 33).2 = 200 ∧
    (updateReset 1 2 (registerClone 1 2 2 ⟨100, 3, [5, 7], 9⟩ 200 33).1
        (registerClone 1 2 2 ⟨100, 3, [5, 7], 9⟩ 200 33).2 400).2.base = 100 := by
  have h := C7_clone_forward_reset 1 2 2 ⟨100, 3, [5, 7], 9⟩ 200 33 400
    (Or.inr rfl) (by decide) (by decide)
  exact ⟨h.1, h.2.1, h.2.2.1⟩

/-- C9: shared handle reference counting: every sequence of operations
(object creation, construction from an object, copy construction,
assignment, update with share true, destruction) preserves the
invariant that each allocated object's use counter equals the number
of live handles referencing it, every referenced object is allocated
and no deleted object is live; self assignment of a handle leaves the
whole state unchanged; and destroying a handle that references an
object deletes the object exactly when that handle is the last
referrer (the counter reaching zero), merely decrementing the counter
when other referrers remain. -/
theorem C9_shared_handle_refcount :
    (∀ (s : SH.ShState) (op : SH.ShOp), SH.good s → SH.good (SH.step s op)) ∧
    (∀ (ops : List SH.ShOp) (s : SH.ShState), SH.good s → SH.good (SH.runOps ops s)) ∧
    (∀ (s : SH.ShState) (h : Nat), SH.step s (SH.ShOp.assign h h) = s) ∧
    (∀ (s : SH.ShState) (h o : Nat), SH.good s →
      s.handles.lookup h = some (some o) →
      ((s.cnt o = 1 →
          (SH.step s (SH.ShOp.destroy h)).dead o = true ∧
          (SH.step s (SH.ShOp.destroy h)).allocated o = false) ∧
       (1 < s.cnt o →
          (SH.step s (SH.ShOp.destroy h)).allocated o = true ∧
          (SH.step s (SH.ShOp.destroy h)).cnt o = s.cnt o - 1))) := by
  refine ⟨SH.step_good, SH.runOps_good, ?_, ?_⟩
  · intro s h
    simp [SH.step]
  · intro s h o hg hl
    have hsome : (s.handles.lookup h).isSome = true := by
      rw [hl]
      rfl
    have hE' : (s.handles.lookup h).getD none = some o := by
      rw [hl]
      rfl
    constructor
    · intro hcnt1
      have hz : s.cnt o - 1 = 0 := by omega
      have hc := SH.cancel_eq_of_last s h o hE' hz
      simp only [SH.step, if_pos hsome]
      rw [hc]
      constructor
      · show (if o = o then true else s.dead o) = true
        rw [if_pos rfl]
      · show (if o = o then false else s.allocated o) = false
        rw [if_pos rfl]
    · intro hcnt2
      have hz : ¬ s.cnt o - 1 = 0 := by omega
      have hc := SH.cancel_eq_of_more s h o hE' hz
      have hmem0 : (h, some o) ∈ s.handles := SH.lookup_mem _ _ _ hl
      have hallo : s.allocated o = true := hg.2.2.1 _ hmem0 o rfl
      simp only [SH.step, if_pos hsome]
      rw [hc]
      constructor
      · exact hallo
      · show (if o = o then s.cnt o - 1 else s.cnt o) = s.cnt o - 1
        rw [if_pos rfl]

end GecodeKernel
